import Mathlib

/-!
# fft.cpp — a shallow embedding and its verification

The C++ program `src/fft.cpp` contains three discrete Fourier transforms over
`std::vector<std::complex<double>>`:

* `naive_dft`      — direct O(N²) summation,
* `recursive_fft`  — divide and conquer over even/odd indexed halves,
* `optimized_fft`  — in-place iterative radix-2 transform (bit-reversal permutation
  followed by butterfly stages),

and two helpers, `is_power_of_two` and `reverse_bits`.

## Modelling conventions

* `Complex` (`std::complex<double>`) is modelled by the exact complex numbers `ℂ`,
  `double` by `ℝ`, and `std::polar(rho, theta)` by `rho·(cos theta + i·sin theta)`.
* A `std::vector<T>` is a `List T`.  Every element access `v[i]` is checked: an index
  outside `[0, v.size())` yields `Fault.out_of_range` (undefined behaviour in C++).
* `size_t` values are natural numbers.  All `size_t` values computed by the program are
  bounded by `2·N + 1` where `N` is a vector length, hence never wrap.
* `int` is a 32-bit two's complement integer and `unsigned int` a 32-bit word: the
  conversions `to_int` and `to_unsigned` reduce modulo `2^32`.
* `assert(c)` yields `Fault.assertion_failed` when `c` is false.
* Counted loops `for (i = 0; i < n; ++i)` are folds over `List.range n`; loops with another
  stride are recursive functions following the loop header.
-/

open Complex

namespace FFT

/-! ## Faults and checked vector access -/

/-- The ways in which a run of the program can go wrong. -/
inductive Fault where
  /-- An `assert` was violated. -/
  | assertion_failed
  /-- A vector was indexed outside of its bounds. -/
  | out_of_range
  /-- A shift by at least the width of the shifted type. -/
  | shift_overflow
  deriving DecidableEq, Repr

/-- Read access `v[i]` with a `size_t` index. -/
def vec_read {α : Type} (v : List α) (i : Nat) : Except Fault α :=
  match v[i]? with
  | some a => .ok a
  | none => .error .out_of_range

/-- Write access `v[i] = a` with a `size_t` index. -/
def vec_write {α : Type} (v : List α) (i : Nat) (a : α) : Except Fault (List α) :=
  if i < v.length then .ok (v.set i a) else .error .out_of_range

/-- The call `std::swap(v[i], v[j])`. -/
def vec_swap {α : Type} (v : List α) (i j : Nat) : Except Fault (List α) := do
  let a ← vec_read v i
  let b ← vec_read v j
  let v ← vec_write v i b
  vec_write v j a

/-! ## Machine integers -/

/-- Conversion to `int`: reduction modulo `2^32` into `[-2^31, 2^31)`. -/
def to_int (n : Int) : Int := (n + 2 ^ 31) % 2 ^ 32 - 2 ^ 31

/-- Conversion to `unsigned int`: reduction modulo `2^32`. -/
def to_unsigned (n : Int) : Nat := (n % 2 ^ 32).toNat

/-- Conversion of an `int` to `size_t`: reduction modulo `2^64`. -/
def to_size_t (n : Int) : Nat := (n % 2 ^ 64).toNat

/-! ## Helpers of `fft.cpp` -/

/-- The function `is_power_of_two(int n)`:
`return (n > 0) && ((n & (n - 1)) == 0);`.  The right operand is evaluated for positive `n`
only, so `n - 1` does not overflow. -/
def is_power_of_two (n : Int) : Bool :=
  decide (n > 0) && (Int.land n (n - 1) == 0)

/-- The function `reverse_bits(unsigned int index, int num_bits)`: for `i` from `0` below
`num_bits`, when bit `i` of `index` is set, the bit `num_bits - 1 - i` of the result is set.
`1U << k` is an `unsigned int`, hence reduced modulo `2^32`. -/
def reverse_bits (index : Nat) (num_bits : Int) : Nat :=
  (List.range num_bits.toNat).foldl
    (fun reversed_index i =>
      if (index >>> i) &&& 1 ≠ 0 then
        reversed_index ||| to_unsigned ((1 <<< (num_bits - 1 - (i : Int)).toNat : Nat) : Int)
      else reversed_index)
    0

/-- The function `std::polar(rho, theta)`: the complex number of modulus `rho` and
argument `theta`. -/
noncomputable def polar (rho theta : ℝ) : ℂ := ⟨rho * Real.cos theta, rho * Real.sin theta⟩

/-- The constant `PI` (`M_PI`). -/
noncomputable def PI : ℝ := Real.pi

/-! ## `naive_dft` -/

/-- The function `naive_dft`: `X` starts as `N` zeros; for every `k < N` and every `n < N`,
`X[k] += x[n] * polar(1, -2·PI·k·n/N)`. -/
noncomputable def naive_dft (x : List ℂ) : Except Fault (List ℂ) :=
  let N := x.length
  (List.range N).foldlM
    (fun X (k : Nat) =>
      (List.range N).foldlM
        (fun X (n : Nat) => do
          let theta : ℝ := -2 * PI * (k : ℝ) * (n : ℝ) / (N : ℝ)
          let twiddle_factor := polar 1 theta
          let xn ← vec_read x n
          let Xk ← vec_read X k
          vec_write X k (Xk + xn * twiddle_factor))
        X)
    (List.replicate N 0)

/-! ## `recursive_fft` -/

/-- One pass of the split loop body: `even[i] = x[2*i]; odd[i] = x[2*i + 1];`. -/
def split_step (x : List ℂ) (eo : List ℂ × List ℂ) (i : Nat) :
    Except Fault (List ℂ × List ℂ) := do
  let a ← vec_read x (2 * i)
  let even ← vec_write eo.1 i a
  let b ← vec_read x (2 * i + 1)
  let odd ← vec_write eo.2 i b
  pure (even, odd)

/-- The split loop of `recursive_fft`: `even` and `odd` start as `N / 2` zeros and
`for (size_t i = 0; 2 * i < N; i++)` runs `split_step`.  The condition `2 * i < N` holds
exactly for `i < (N + 1) / 2`. -/
def split_loop (x : List ℂ) : Except Fault (List ℂ × List ℂ) :=
  let N := x.length
  (List.range ((N + 1) / 2)).foldlM (split_step x)
    (List.replicate (N / 2) 0, List.replicate (N / 2) 0)

/-- The combine loop of `recursive_fft`: `result` starts as `N` zeros and for `k < N / 2`,
with `twiddle = polar(1, -2·PI·k/N) * x_odd[k]`, `result[k] = x_even[k] + twiddle` and
`result[k + N/2] = x_even[k] - twiddle`. -/
noncomputable def combine_loop (N : Nat) (x_even x_odd : List ℂ) : Except Fault (List ℂ) :=
  (List.range (N / 2)).foldlM
    (fun result (k : Nat) => do
      let theta : ℝ := -2 * PI * (k : ℝ) / (N : ℝ)
      let xo ← vec_read x_odd k
      let twiddle := polar 1 theta * xo
      let xe ← vec_read x_even k
      let result ← vec_write result k (xe + twiddle)
      let xe ← vec_read x_even k
      vec_write result (k + N / 2) (xe - twiddle))
    (List.replicate N 0)

/-- The function `recursive_fft`.  The recursion is on vectors of half the length: the split
loop only writes into `even` and `odd`, which keeps their length `N / 2`. -/
noncomputable def recursive_fft (x : List ℂ) : Except Fault (List ℂ) :=
  if hN : x.length ≤ 1 then .ok x
  else
    match hs : split_loop x with
    | .error e => .error e
    | .ok (even, odd) =>
      have hlen : even.length = x.length / 2 ∧ odd.length = x.length / 2 := by
        have key : ∀ (l : List Nat) (s s' : List ℂ × List ℂ),
            l.foldlM (split_step x) s = .ok s' →
            s'.1.length = s.1.length ∧ s'.2.length = s.2.length := by
          intro l
          induction l with
          | nil =>
            intro s s' h
            simp only [List.foldlM_nil, pure, Except.pure, Except.ok.injEq] at h
            subst h
            exact ⟨rfl, rfl⟩
          | cons a l ih =>
            intro s s' h
            rw [List.foldlM_cons] at h
            cases hb : split_step x s a with
            | error e => rw [hb] at h; cases h
            | ok t =>
              rw [hb] at h
              have h2 := ih t s' h
              have h3 : t.1.length = s.1.length ∧ t.2.length = s.2.length := by
                unfold split_step at hb
                cases h1 : vec_read x (2 * a) with
                | error e => simp [h1, bind, Except.bind] at hb
                | ok u =>
                  cases h4 : vec_read x (2 * a + 1) with
                  | error e =>
                    by_cases c1 : a < s.1.length <;>
                      simp [h1, h4, vec_write, c1, bind, Except.bind] at hb
                  | ok v =>
                    by_cases c1 : a < s.1.length <;> by_cases c2 : a < s.2.length <;>
                      simp [h1, h4, vec_write, c1, c2, bind, Except.bind, pure, Except.pure] at hb
                    subst hb
                    simp
              exact ⟨h2.1.trans h3.1, h2.2.trans h3.2⟩
        have := key _ _ _ hs
        simpa using this
      have _h1 : even.length < x.length := by omega
      have _h2 : odd.length < x.length := by omega
      do
        let x_even ← recursive_fft even
        let x_odd ← recursive_fft odd
        combine_loop x.length x_even x_odd
termination_by x.length

/-! ## `optimized_fft` -/

/-- The loop `while ((1 << num_bits) < N) num_bits++;`.  `1 << num_bits` is an `int`
(for `num_bits = 31` its value is `-2^31`) which the comparison converts to `size_t`; a shift
by `32` or more is undefined. -/
def num_bits_loop (N : Nat) (num_bits : Nat) : Except Fault Nat :=
  if h : num_bits < 32 then
    if to_size_t (to_int ((1 <<< num_bits : Nat) : Int)) < N then num_bits_loop N (num_bits + 1)
    else .ok num_bits
  else .error .shift_overflow
termination_by 32 - num_bits
decreasing_by omega

/-- The bit-reversal permutation loop of `optimized_fft`: for every `i < N`,
`rev_i = reverse_bits(i, num_bits)` (with `i` converted to `unsigned int`) and
`x[i]`, `x[rev_i]` are swapped when `i < rev_i`. -/
def bit_reversal_permutation {α : Type} (x : List α) (num_bits : Int) :
    Except Fault (List α) :=
  (List.range x.length).foldlM
    (fun x (i : Nat) =>
      let rev_i := reverse_bits (to_unsigned i) num_bits
      if i < rev_i then vec_swap x i rev_i else .ok x)
    x

/-- One butterfly: with `int idx1 = i + j` and `int idx2 = i + j + half_len`,
`u = x[idx1]`, `v_twiddled = w * x[idx2]`, `x[idx1] = u + v_twiddled`,
`x[idx2] = u - v_twiddled`, `w *= w_len`.  The state is the pair `(x, w)`. -/
def butterfly (w_len : ℂ) (half_len i : Nat) (s : List ℂ × ℂ) (j : Nat) :
    Except Fault (List ℂ × ℂ) := do
  let idx1 : Int := to_int ((i + j : Nat) : Int)
  let idx2 : Int := to_int ((i + j + half_len : Nat) : Int)
  let u ← vec_read s.1 (to_size_t idx1)
  let v ← vec_read s.1 (to_size_t idx2)
  let v_twiddled := s.2 * v
  let x ← vec_write s.1 (to_size_t idx1) (u + v_twiddled)
  let x ← vec_write x (to_size_t idx2) (u - v_twiddled)
  pure (x, s.2 * w_len)

/-- The inner loop of `optimized_fft` for the block starting at `i`: `w` starts at `1` and
`butterfly` runs for `j < half_len`. -/
def butterfly_loop (w_len : ℂ) (half_len i : Nat) (x : List ℂ) : Except Fault (List ℂ) := do
  let s ← (List.range half_len).foldlM (butterfly w_len half_len i) (x, 1)
  pure s.1

/-- The middle loop of `optimized_fft`: `for (size_t i = 0; i < N; i += len)`, entered
at `i`. -/
def block_loop (w_len : ℂ) (len : Nat) (hlen : 0 < len) (N i : Nat) (x : List ℂ) :
    Except Fault (List ℂ) :=
  if _h : i < N then do
    let x ← butterfly_loop w_len (len / 2) i x
    block_loop w_len len hlen N (i + len) x
  else .ok x
termination_by N - i

/-- The outer loop of `optimized_fft`: `for (size_t len = 2; len <= N; len <<= 1)`, entered
at `len`, with `half_len = len / 2` and `w_len = polar(1, -2·PI/len)`. -/
noncomputable def stage_loop (N len : Nat) (hlen : 0 < len) (x : List ℂ) :
    Except Fault (List ℂ) :=
  if h : len ≤ N then do
    let w_len := polar 1 (-2 * PI / (len : ℝ))
    let x ← block_loop w_len len hlen N 0 x
    stage_loop N (2 * len) (by omega) x
  else .ok x
termination_by N + 1 - len

/-- The function `optimized_fft`; the result is the final content of the vector `x`. -/
noncomputable def optimized_fft (x : List ℂ) : Except Fault (List ℂ) :=
  let N := x.length
  if N ≤ 1 then .ok x
  else if is_power_of_two (to_int N) = false then .error .assertion_failed
  else do
    let num_bits ← num_bits_loop N 0
    let x ← bit_reversal_permutation x (num_bits : Int)
    stage_loop N 2 (by omega) x

/-! ## Specification of the transform -/

/-- Specification: the unit complex number `exp(-i·2π·a/n)`. -/
noncomputable def twiddle (n a : Nat) : ℂ :=
  Complex.exp (((-2 * Real.pi * (a : ℝ) / (n : ℝ) : ℝ) : ℂ) * I)

/-- Specification: the `k`-th coefficient of the discrete Fourier transform of the `n` values
`z 0, ..., z (n - 1)`, the sum of `z t · exp(-i·2π·k·t/n)` over `t < n`. -/
noncomputable def dft_coeff (z : Nat → ℂ) (n k : Nat) : ℂ :=
  ∑ t in Finset.range n, z t * twiddle n (k * t)

/-- Specification: the discrete Fourier transform of a sequence, coefficient by
coefficient. -/
noncomputable def dft_list (x : List ℂ) : List ℂ :=
  (List.range x.length).map (fun k => dft_coeff (fun t => x.getD t 0) x.length k)

/-- Specification: the value at position `p` after one butterfly stage with half length `h`
and principal twiddle `w`, from the values `X` before the stage.  Position `p` lies at offset
`p % (2·h)` in its block of length `2·h`: in the first half it receives `u + w^j·v`, in the
second half `u - w^j·v`. -/
def stage_value (w : ℂ) (h : Nat) (X : Nat → ℂ) (p : Nat) : ℂ :=
  if p % (2 * h) < h then X p + w ^ (p % (2 * h)) * X (p + h)
  else X (p - h) - w ^ (p % (2 * h) - h) * X p

/-- Specification: the state of `optimized_fft` between two stages, for an input with values
`X` and length `2^(s + n)`.  The vector consists of `2^n` blocks of length `2^s`, and block `b`
holds the transform of the `2^s` input values `X (reverse_bits(b, n) + t·2^n)`, `t < 2^s`. -/
def stage_invariant (X : Nat → ℂ) (s n : Nat) (y : List ℂ) : Prop :=
  y.length = 2 ^ (s + n) ∧
  ∀ b k, b < 2 ^ n → k < 2 ^ s →
    y.getD (b * 2 ^ s + k) 0
      = dft_coeff (fun t => X (reverse_bits b (n : Int) + t * 2 ^ n)) (2 ^ s) k

/-! ## The test signal of `main` -/

/-- The signal that `main` builds for the length `N`: for `n < N`,
`signal.push_back(Complex(sin(2·PI·freq·n/N), 0))` with `freq = 5`. -/
noncomputable def signal (N : Nat) : List ℂ :=
  (List.range N).foldl
    (fun signal (n : Nat) =>
      let value : ℝ := Real.sin (2 * PI * 5 * (n : ℝ) / (N : ℝ))
      signal ++ [(⟨value, 0⟩ : ℂ)])
    []

/-! ## `optimized_fft` with a log of its writes

The loops of `optimized_fft` once more, with a ghost log added to the state.  A write
`x[i] = a` through `vec_write_logged` records the position `i` it writes; a butterfly returns
the positions that its two writes recorded; the inner and middle loops collect one entry per
butterfly, and the outer loop one entry `(len, butterflies)` per stage.  The computation
itself is unchanged. -/

/-- Write access `v[i] = a` that records the written position `i` in the log. -/
def vec_write_logged {α : Type} (v : List α) (log : List Nat) (i : Nat) (a : α) :
    Except Fault (List α × List Nat) := do
  let v ← vec_write v i a
  pure (v, log ++ [i])

/-- One butterfly, as `butterfly`, with its two writes `x[idx1] = u + v_twiddled` and
`x[idx2] = u - v_twiddled` logged: the result is the new state `(x, w)` together with the
positions written by this butterfly. -/
def butterfly_traced (w_len : ℂ) (half_len i : Nat) (s : List ℂ × ℂ) (j : Nat) :
    Except Fault ((List ℂ × ℂ) × List Nat) := do
  let idx1 : Int := to_int ((i + j : Nat) : Int)
  let idx2 : Int := to_int ((i + j + half_len : Nat) : Int)
  let u ← vec_read s.1 (to_size_t idx1)
  let v ← vec_read s.1 (to_size_t idx2)
  let v_twiddled := s.2 * v
  let r ← vec_write_logged s.1 [] (to_size_t idx1) (u + v_twiddled)
  let r ← vec_write_logged r.1 r.2 (to_size_t idx2) (u - v_twiddled)
  pure ((r.1, s.2 * w_len), r.2)

/-- The inner loop with its log: every pass runs `butterfly_traced` and appends the positions
written by that butterfly as one entry. -/
def butterfly_loop_traced (w_len : ℂ) (half_len i : Nat) (x : List ℂ)
    (log : List (List Nat)) : Except Fault (List ℂ × List (List Nat)) := do
  let s ← (List.range half_len).foldlM
    (fun (s : (List ℂ × ℂ) × List (List Nat)) (j : Nat) => do
      let r ← butterfly_traced w_len half_len i s.1 j
      pure (r.1, s.2 ++ [r.2]))
    ((x, 1), log)
  pure (s.1.1, s.2)

/-- The middle loop with the log of its butterflies. -/
def block_loop_traced (w_len : ℂ) (len : Nat) (hlen : 0 < len) (N i : Nat) (x : List ℂ)
    (log : List (List Nat)) : Except Fault (List ℂ × List (List Nat)) :=
  if _h : i < N then do
    let r ← butterfly_loop_traced w_len (len / 2) i x log
    block_loop_traced w_len len hlen N (i + len) r.1 r.2
  else .ok (x, log)
termination_by N - i

/-- The outer loop with its log: one entry `(len, butterflies)` for every stage. -/
noncomputable def stage_loop_traced (N len : Nat) (hlen : 0 < len) (x : List ℂ)
    (log : List (Nat × List (List Nat))) :
    Except Fault (List ℂ × List (Nat × List (List Nat))) :=
  if h : len ≤ N then do
    let w_len := polar 1 (-2 * PI / (len : ℝ))
    let r ← block_loop_traced w_len len hlen N 0 x []
    stage_loop_traced N (2 * len) (by omega) r.1 (log ++ [(len, r.2)])
  else .ok (x, log)
termination_by N + 1 - len

/-- The function `optimized_fft` with the log of its stages. -/
noncomputable def optimized_fft_traced (x : List ℂ) :
    Except Fault (List ℂ × List (Nat × List (List Nat))) :=
  let N := x.length
  if N ≤ 1 then .ok (x, [])
  else if is_power_of_two (to_int N) = false then .error .assertion_failed
  else do
    let num_bits ← num_bits_loop N 0
    let x ← bit_reversal_permutation x (num_bits : Int)
    stage_loop_traced N 2 (by omega) x []

/-- The first `s` passes of the outer loop of `optimized_fft`, those with the block lengths
`2, 4, ..., 2^s`: pass number `s + 1` runs the middle loop with `len = 2·2^s`. -/
noncomputable def run_stages (N : Nat) : Nat → List ℂ → Except Fault (List ℂ)
  | 0, x => .ok x
  | s + 1, x => do
    let x ← run_stages N s x
    block_loop (polar 1 (-2 * PI / ((2 * 2 ^ s : Nat) : ℝ))) (2 * 2 ^ s)
      (Nat.mul_pos (by decide) (Nat.pos_pow_of_pos s (by decide))) N 0 x

/-! ## Checked vector access -/

theorem vec_read_ok {α : Type} (v : List α) (i : Nat) (h : i < v.length) :
    vec_read v i = .ok v[i] := by
  simp [vec_read, List.getElem?_eq_getElem h]

theorem vec_read_getD (v : List ℂ) (i : Nat) (h : i < v.length) :
    vec_read v i = .ok (v.getD i 0) := by
  simp [vec_read, List.getElem?_eq_getElem h, List.getD_eq_getElem?_getD]

theorem vec_read_error {α : Type} (v : List α) (i : Nat) (h : v.length ≤ i) :
    vec_read v i = .error .out_of_range := by
  simp [vec_read, List.getElem?_eq_none h]

theorem vec_write_ok {α : Type} (v : List α) (i : Nat) (a : α) (h : i < v.length) :
    vec_write v i a = .ok (v.set i a) := by
  simp [vec_write, h]

theorem vec_write_error {α : Type} (v : List α) (i : Nat) (a : α) (h : v.length ≤ i) :
    vec_write v i a = .error .out_of_range := by
  simp [vec_write, Nat.not_lt.mpr h]

theorem getD_set (v : List ℂ) (i p : Nat) (a : ℂ) (h : i < v.length) :
    (v.set i a).getD p 0 = if p = i then a else v.getD p 0 := by
  simp only [List.getD_eq_getElem?_getD, List.getElem?_set]
  by_cases hp : p = i
  · subst hp; simp [h]
  · have : ¬ i = p := fun e => hp e.symm
    simp [hp, this]

/-- The loop rule for counted loops: an invariant that holds initially and is carried by
every pass of the body holds at the end, and the loop completes without a fault. -/
theorem foldlM_range_inv {σ : Type} (body : σ → Nat → Except Fault σ)
    (Inv : Nat → σ → Prop) (n : Nat) (s0 : σ) (h0 : Inv 0 s0)
    (hstep : ∀ i s, i < n → Inv i s → ∃ s', body s i = .ok s' ∧ Inv (i + 1) s') :
    ∃ s', (List.range n).foldlM body s0 = .ok s' ∧ Inv n s' := by
  induction n with
  | zero => exact ⟨s0, rfl, h0⟩
  | succ n ih =>
    obtain ⟨s1, h1, hI⟩ := ih (fun i s hi hs => hstep i s (Nat.lt_succ_of_lt hi) hs)
    obtain ⟨s2, h2, hI2⟩ := hstep n s1 (Nat.lt_succ_self n) hI
    refine ⟨s2, ?_, hI2⟩
    rw [List.range_succ, List.foldlM_append, h1]
    simp [bind, Except.bind, h2, List.foldlM_cons, pure, Except.pure]

/-! ## `reverse_bits` -/

theorem to_unsigned_shift (k : Nat) (hk : k < 32) :
    to_unsigned ((1 <<< k : Nat) : Int) = 2 ^ k := by
  have h1 : (2:Nat) ^ k < 2 ^ 32 := Nat.pow_lt_pow_right (by norm_num) hk
  unfold to_unsigned
  rw [Nat.one_shiftLeft]
  have h2 : ((2 ^ k : Nat) : Int) % 2 ^ 32 = ((2 ^ k : Nat) : Int) := by
    apply Int.emod_eq_of_lt
    · exact Int.ofNat_nonneg _
    · exact_mod_cast h1
  rw [h2, Int.toNat_ofNat]

theorem bit_test (index i : Nat) : ((index >>> i) &&& 1 ≠ 0) ↔ index.testBit i = true := by
  rw [Nat.testBit, Nat.land_comm]
  simp

/-- The loop of `reverse_bits` after `k` passes. -/
theorem reverse_bits_fold (index n k : Nat) (hn : n ≤ 32) (hk : k ≤ n) (j : Nat) :
    ((List.range k).foldl
      (fun reversed_index i =>
        if (index >>> i) &&& 1 ≠ 0 then
          reversed_index ||| to_unsigned ((1 <<< ((n : Int) - 1 - (i : Int)).toNat : Nat) : Int)
        else reversed_index) 0).testBit j
      = (decide (j < n ∧ n - 1 - j < k) && index.testBit (n - 1 - j)) := by
  induction k with
  | zero => simp
  | succ k ih =>
    rw [List.range_succ, List.foldl_append]
    simp only [List.foldl_cons, List.foldl_nil]
    have e1 : ((n : Int) - 1 - (k : Int)).toNat = n - 1 - k := by omega
    rw [e1, to_unsigned_shift _ (by omega)]
    by_cases hb : index.testBit k = true
    · rw [if_pos ((bit_test index k).mpr hb), Nat.testBit_lor, ih (by omega), Nat.testBit_two_pow]
      by_cases hj : n - 1 - k = j
      · have : n - 1 - j = k := by omega
        simp [hj, this, hb]
        omega
      · have : ¬ (n - 1 - j = k ∧ j < n) := by omega
        by_cases h3 : j < n ∧ n - 1 - j < k
        · have h4 : j < n ∧ n - 1 - j < k + 1 := by omega
          simp [h3, h4, hj]
        · have h4 : ¬ (j < n ∧ n - 1 - j < k + 1) := by omega
          simp [h3, h4, hj]
    · rw [if_neg (fun h => hb ((bit_test index k).mp h)), ih (by omega)]
      by_cases hj : n - 1 - j = k
      · rw [hj]
        simp [hb]
      · by_cases h3 : j < n ∧ n - 1 - j < k
        · have h4 : j < n ∧ n - 1 - j < k + 1 := by omega
          simp [h3, h4]
        · have h4 : ¬ (j < n ∧ n - 1 - j < k + 1) := by omega
          simp [h3, h4]

/-- Bit `j` of `reverse_bits index n` is bit `n - 1 - j` of `index` below `n`, and `0` from
`n` on. -/
theorem reverse_bits_testBit (index n : Nat) (hn : n ≤ 32) (j : Nat) :
    (reverse_bits index (n : Int)).testBit j = (decide (j < n) && index.testBit (n - 1 - j)) := by
  unfold reverse_bits
  rw [Int.toNat_ofNat, reverse_bits_fold index n n hn (le_refl n) j]
  by_cases h : j < n
  · have : j < n ∧ n - 1 - j < n := by omega
    simp [h, this]
  · have : ¬ (j < n ∧ n - 1 - j < n) := by omega
    simp [h, this]

theorem reverse_bits_lt (index n : Nat) (hn : n ≤ 32) : reverse_bits index (n : Int) < 2 ^ n := by
  apply Nat.lt_pow_two_of_testBit
  intro i hi
  rw [reverse_bits_testBit index n hn]
  simp
  intro h; omega

theorem reverse_bits_involutive (v n : Nat) (hn : n ≤ 32) (hv : v < 2 ^ n) :
    reverse_bits (reverse_bits v (n : Int)) (n : Int) = v := by
  apply Nat.eq_of_testBit_eq
  intro j
  rw [reverse_bits_testBit _ n hn, reverse_bits_testBit _ n hn]
  by_cases h : j < n
  · have h1 : n - 1 - j < n := by omega
    have h2 : n - 1 - (n - 1 - j) = j := by omega
    simp [h, h1, h2]
  · have : v.testBit j = false := by
      apply Nat.testBit_lt_two_pow
      exact lt_of_lt_of_le hv (Nat.pow_le_pow_right (by norm_num) (by omega))
    simp [h, this]

/-! ## `is_power_of_two` -/

theorem land_pred_eq_zero (n : Nat) (hpos : 0 < n) (h : n &&& (n - 1) = 0) : ∃ k, n = 2 ^ k := by
  induction n using Nat.strong_induction_on with
  | _ n ih =>
    have hb : ∀ i, ((n / 2).testBit i && ((n - 1) / 2).testBit i) = false := by
      intro i
      have := congrArg (fun t => Nat.testBit t (i + 1)) h
      simp only [Nat.testBit_land, Nat.zero_testBit] at this
      rw [Nat.testBit_succ, Nat.testBit_succ] at this
      exact this
    rcases Nat.even_or_odd n with he | ho
    · obtain ⟨a, ha⟩ := he
      have h1 : n / 2 = a := by omega
      have h2 : (n - 1) / 2 = a - 1 := by omega
      have h3 : a &&& (a - 1) = 0 := by
        apply Nat.zero_of_testBit_eq_false
        intro i
        have := hb i
        rw [h1, h2] at this
        rw [Nat.testBit_land]; exact this
      obtain ⟨k, hk⟩ := ih a (by omega) (by omega) h3
      exact ⟨k + 1, by rw [pow_succ]; omega⟩
    · obtain ⟨a, ha⟩ := ho
      have h1 : n / 2 = a := by omega
      have h2 : (n - 1) / 2 = a := by omega
      have h3 : a = 0 := by
        apply Nat.zero_of_testBit_eq_false
        intro i
        have := hb i
        rw [h1, h2] at this
        simpa using this
      exact ⟨0, by simp; omega⟩

theorem is_power_of_two_nat (n : Nat) : is_power_of_two (n : Int) = true ↔ ∃ k, n = 2 ^ k := by
  unfold is_power_of_two
  constructor
  · intro h
    simp only [Bool.and_eq_true, decide_eq_true_eq, beq_iff_eq] at h
    obtain ⟨hpos, hl⟩ := h
    have hpos' : 0 < n := by exact_mod_cast hpos
    have e : ((n : Int) - 1) = ((n - 1 : Nat) : Int) := by omega
    rw [e] at hl
    have hl' : n &&& (n - 1) = 0 := by
      have : Int.land (n : Int) ((n - 1 : Nat) : Int) = ((n &&& (n - 1) : Nat) : Int) := rfl
      rw [this] at hl
      exact_mod_cast hl
    exact land_pred_eq_zero n hpos' hl'
  · rintro ⟨k, rfl⟩
    have hpos : 0 < 2 ^ k := Nat.pos_pow_of_pos k (by norm_num)
    have e : (((2 ^ k : Nat) : Int) - 1) = ((2 ^ k - 1 : Nat) : Int) := by omega
    rw [e]
    have : Int.land ((2 ^ k : Nat) : Int) ((2 ^ k - 1 : Nat) : Int)
        = ((2 ^ k &&& (2 ^ k - 1) : Nat) : Int) := rfl
    rw [this, Nat.and_pow_two_sub_one_eq_mod]
    simp

theorem to_int_small (n : Nat) (h : n < 2 ^ 31) : to_int (n : Int) = n := by
  unfold to_int
  have : (n : Int) < 2 ^ 31 := by exact_mod_cast h
  omega

theorem to_size_t_small (n : Nat) (h : n < 2 ^ 64) : to_size_t (n : Int) = n := by
  unfold to_size_t
  have : (n : Int) < 2 ^ 64 := by exact_mod_cast h
  omega

theorem to_unsigned_small (n : Nat) (h : n < 2 ^ 32) : to_unsigned (n : Int) = n := by
  unfold to_unsigned
  have : (n : Int) < 2 ^ 32 := by exact_mod_cast h
  omega

theorem is_power_of_two_neg (n : Int) (h : n ≤ 0) : is_power_of_two n = false := by
  unfold is_power_of_two
  have : ¬ n > 0 := by omega
  simp [this]

theorem is_power_of_two_to_int (N : Nat) (hN : N < 2 ^ 32) (hp : ¬ ∃ k, N = 2 ^ k) :
    is_power_of_two (to_int (N : Int)) = false := by
  by_cases h : N < 2 ^ 31
  · rw [to_int_small N h]
    cases hb : is_power_of_two (N : Int) with
    | false => rfl
    | true => exact absurd ((is_power_of_two_nat N).mp hb) hp
  · apply is_power_of_two_neg
    unfold to_int
    have : (N : Int) < 2 ^ 32 := by exact_mod_cast hN
    have : (2 : Int) ^ 31 ≤ N := by exact_mod_cast (Nat.le_of_not_lt h)
    omega

theorem optimized_fft_assert (x : List ℂ) (h2 : 2 ≤ x.length)
    (hp : is_power_of_two (to_int (x.length : Int)) = false) :
    optimized_fft x = .error .assertion_failed := by
  unfold optimized_fft
  have : ¬ x.length ≤ 1 := by omega
  simp [this, hp]

/-- C4 (as amended): for every input whose length `N` is not a power of two and satisfies
`2 ≤ N < 2^32`, `optimized_fft` fails fatally: its assertion fires. -/
theorem optimized_fft_rejects_non_power_of_two (x : List ℂ) (h2 : 2 ≤ x.length)
    (h32 : x.length < 2 ^ 32) (hp : ¬ ∃ k, x.length = 2 ^ k) :
    optimized_fft x = .error .assertion_failed :=
  optimized_fft_assert x h2 (is_power_of_two_to_int x.length h32 hp)

/-- Witness for C4 (as amended): a vector of length three. -/
theorem optimized_fft_rejects_non_power_of_two_witness :
    optimized_fft [1, 2, 3] = .error .assertion_failed :=
  optimized_fft_rejects_non_power_of_two [1, 2, 3] (by simp) (by simp) (by
    rintro ⟨k, hk⟩
    have h3 : (3 : Nat) = 2 ^ k := by simpa using hk
    rcases k with _ | k
    · simp at h3
    · rw [pow_succ] at h3; omega)

/-- C4 (as stated) fails: the empty vector has a length that is not a power of two, and
`optimized_fft` returns it without any failure. -/
theorem optimized_fft_empty_returns :
    (¬ ∃ k, ([] : List ℂ).length = 2 ^ k) ∧ optimized_fft [] = .ok [] := by
  constructor
  · rintro ⟨k, hk⟩
    have : 0 < 2 ^ k := Nat.pos_pow_of_pos k (by norm_num)
    simp only [List.length_nil] at hk
    omega
  · unfold optimized_fft
    simp

/-- C5: a vector whose length is the power of two `2^31` is rejected by the precondition
check of `optimized_fft`: the length converted to `int` is `-2^31`. -/
theorem optimized_fft_rejects_two_pow_31 :
    (List.replicate (2 ^ 31) (0 : ℂ)).length = 2 ^ 31 ∧
    to_int ((List.replicate (2 ^ 31) (0 : ℂ)).length : Int) = -2 ^ 31 ∧
    optimized_fft (List.replicate (2 ^ 31) (0 : ℂ)) = .error .assertion_failed := by
  refine ⟨List.length_replicate _ _, ?_, ?_⟩
  · rw [List.length_replicate]; decide
  · apply optimized_fft_assert
    · rw [List.length_replicate]; norm_num
    · rw [List.length_replicate]; decide

/-- C9: `reverse_bits(reverse_bits(v, b), b) == v` for `0 ≤ b ≤ 32` and `v < 2^b`. -/
theorem reverse_bits_involution (v : Nat) (b : Int) (h0 : 0 ≤ b) (h32 : b ≤ 32)
    (hv : v < 2 ^ b.toNat) : reverse_bits (reverse_bits v b) b = v := by
  obtain ⟨n, rfl⟩ := Int.eq_ofNat_of_zero_le h0
  rw [Int.toNat_ofNat] at hv
  exact reverse_bits_involutive v n (by omega) hv

/-- Witness for C9: `b = 3`, `v = 6`. -/
theorem reverse_bits_involution_witness : reverse_bits (reverse_bits 6 3) 3 = 6 :=
  reverse_bits_involution 6 3 (by decide) (by decide) (by decide)

/-- C10: for a 32-bit `index` and `0 ≤ num_bits ≤ 32`, bit `num_bits - 1 - i` of
`reverse_bits(index, num_bits)` is bit `i` of `index` for every `i < num_bits`, the bits at
positions `≥ num_bits` are `0`, so the result is below `2^num_bits` and depends on the low
`num_bits` bits of `index` only; `reverse_bits(1, 3) = 4` and `reverse_bits(3, 3) = 6`. -/
theorem reverse_bits_spec (index : Nat) (num_bits : Int) (_hindex : index < 2 ^ 32)
    (h0 : 0 ≤ num_bits) (h32 : num_bits ≤ 32) :
    (∀ i : Nat, (i : Int) < num_bits →
      (reverse_bits index num_bits).testBit (num_bits - 1 - (i : Int)).toNat = index.testBit i) ∧
    (∀ j : Nat, num_bits ≤ (j : Int) → (reverse_bits index num_bits).testBit j = false) ∧
    reverse_bits index num_bits < 2 ^ num_bits.toNat ∧
    reverse_bits index num_bits = reverse_bits (index % 2 ^ num_bits.toNat) num_bits ∧
    reverse_bits 1 3 = 4 ∧ reverse_bits 3 3 = 6 := by
  obtain ⟨n, rfl⟩ := Int.eq_ofNat_of_zero_le h0
  have hn : n ≤ 32 := by omega
  refine ⟨?_, ?_, ?_, ?_, by decide, by decide⟩
  · intro i hi
    have hi' : i < n := by omega
    have e : ((n : Int) - 1 - (i : Int)).toNat = n - 1 - i := by omega
    rw [e, reverse_bits_testBit index n hn]
    have h1 : n - 1 - i < n := by omega
    have h2 : n - 1 - (n - 1 - i) = i := by omega
    simp [h1, h2]
  · intro j hj
    have hj' : ¬ j < n := by omega
    rw [reverse_bits_testBit index n hn]
    simp [hj']
  · rw [Int.toNat_ofNat]
    exact reverse_bits_lt index n hn
  · rw [Int.toNat_ofNat]
    apply Nat.eq_of_testBit_eq
    intro j
    rw [reverse_bits_testBit _ n hn, reverse_bits_testBit _ n hn, Nat.testBit_mod_two_pow]
    by_cases h : j < n
    · have h1 : n - 1 - j < n := by omega
      simp [h, h1]
    · simp [h]

/-- Witness for C10: `index = 5`, `num_bits = 4`. -/
theorem reverse_bits_spec_witness :
    (5 : Nat) < 2 ^ 32 ∧ (0 : Int) ≤ 4 ∧ (4 : Int) ≤ 32 ∧ reverse_bits 5 4 < 2 ^ (4 : Int).toNat :=
  ⟨by norm_num, by norm_num, by norm_num,
    (reverse_bits_spec 5 4 (by norm_num) (by norm_num) (by norm_num)).2.2.1⟩

/-! ## The bit-reversal permutation -/

theorem vec_swap_ok {α : Type} (v : List α) (i j : Nat) (hi : i < v.length) (hj : j < v.length) :
    vec_swap v i j = .ok ((v.set i v[j]).set j v[i]) := by
  unfold vec_swap
  rw [vec_read_ok v i hi, vec_read_ok v j hj]
  simp only [bind, Except.bind]
  rw [vec_write_ok v i _ hi]
  simp only []
  rw [vec_write_ok _ j _ (by rw [List.length_set]; exact hj)]

/-- The state of the permutation loop after `k` passes: the positions `p` with `p < k` or
`rev p < k` hold `x[rev p]`, the others still hold `x[p]`. -/
theorem bit_reversal_permutation_inv {α : Type} (x : List α) (m : Nat) (hm : m ≤ 32)
    (hN : x.length = 2 ^ m) (k : Nat) (hk : k ≤ x.length) :
    ∃ y, (List.range k).foldlM
        (fun (x : List α) (i : Nat) =>
          let rev_i := reverse_bits (to_unsigned i) (m : Int)
          if i < rev_i then vec_swap x i rev_i else .ok x) x = .ok y ∧
      y.length = x.length ∧
      ∀ p, p < x.length → y[p]? =
        if p < k ∨ reverse_bits p (m : Int) < k then x[reverse_bits p (m : Int)]? else x[p]? := by
  have hpow : (2:Nat) ^ m ≤ 2 ^ 32 := Nat.pow_le_pow_right (by norm_num) hm
  have hrev_lt : ∀ p, reverse_bits p (m : Int) < x.length := fun p => by
    rw [hN]; exact reverse_bits_lt p m hm
  have hinv : ∀ p, p < x.length → reverse_bits (reverse_bits p (m : Int)) (m : Int) = p :=
    fun p hp => reverse_bits_involutive p m hm (by rw [← hN]; exact hp)
  apply foldlM_range_inv _
    (fun k (y : List α) => y.length = x.length ∧ ∀ p, p < x.length → y[p]? =
        if p < k ∨ reverse_bits p (m : Int) < k then x[reverse_bits p (m : Int)]? else x[p]?)
  · exact ⟨rfl, fun p _ => by simp⟩
  · intro i y hi ⟨hlen, hy⟩
    have hiN : i < x.length := by omega
    have hu : to_unsigned (i : Int) = i := to_unsigned_small i (by omega)
    simp only [hu]
    have hri := hrev_lt i
    by_cases hlt : i < reverse_bits i (m : Int)
    · rw [if_pos hlt, vec_swap_ok y i _ (by omega) (by omega)]
      refine ⟨_, rfl, by simp [hlen], ?_⟩
      intro p hp
      have hyi : y[i]? = x[i]? := by
        rw [hy i hiN, if_neg (by omega)]
      have hyr : y[reverse_bits i (m : Int)]? = x[reverse_bits i (m : Int)]? := by
        rw [hy _ hri, if_neg (by rw [hinv i hiN]; omega)]
      rw [List.getElem?_set, List.getElem?_set]
      by_cases h1 : reverse_bits i (m : Int) = p
      · subst h1
        rw [if_pos rfl, if_pos (by simp [hlen]; omega), if_pos (by rw [hinv i hiN]; omega),
          hinv i hiN, ← hyi, List.getElem?_eq_getElem]
      · rw [if_neg h1]
        by_cases h2 : i = p
        · subst h2
          rw [if_pos rfl, if_pos (by omega), if_pos (by omega), ← hyr, List.getElem?_eq_getElem]
        · rw [if_neg h2, hy p hp]
          have h3 : reverse_bits p (m : Int) ≠ i := by
            intro e
            apply h1
            rw [← e, hinv p hp]
          have : (p < i + 1 ∨ reverse_bits p (m : Int) < i + 1) ↔
              (p < i ∨ reverse_bits p (m : Int) < i) := by omega
          simp only [this]
    · rw [if_neg hlt]
      refine ⟨y, rfl, hlen, ?_⟩
      intro p hp
      rw [hy p hp]
      by_cases h2 : p = i
      · subst h2
        by_cases h4 : reverse_bits p (m : Int) = p
        · rw [h4]; simp
        · rw [if_pos (by omega), if_pos (by omega)]
      · by_cases h3 : reverse_bits p (m : Int) = i
        · have : p = reverse_bits i (m : Int) := by rw [← h3, hinv p hp]
          rw [if_pos (by omega), if_pos (by omega)]
        · have : (p < i + 1 ∨ reverse_bits p (m : Int) < i + 1) ↔
              (p < i ∨ reverse_bits p (m : Int) < i) := by omega
          simp only [this]

/-- The result of the permutation loop on a vector of length `2^m`. -/
theorem bit_reversal_permutation_ok {α : Type} (x : List α) (m : Nat) (hm : m ≤ 32)
    (hN : x.length = 2 ^ m) :
    ∃ y, bit_reversal_permutation x (m : Int) = .ok y ∧ y.length = x.length ∧
      ∀ p, p < x.length → y[p]? = x[reverse_bits p (m : Int)]? := by
  obtain ⟨y, h1, h2, h3⟩ := bit_reversal_permutation_inv x m hm hN x.length (le_refl _)
  refine ⟨y, h1, h2, ?_⟩
  intro p hp
  rw [h3 p hp, if_pos (Or.inl hp)]

/-- The permutation loop rearranges the vector. -/
theorem bit_reversal_permutation_perm {α : Type} (x : List α) (m : Nat) (hm : m ≤ 32)
    (hN : x.length = 2 ^ m) :
    ∃ y, bit_reversal_permutation x (m : Int) = .ok y ∧ y.Perm x := by
  obtain ⟨y, h1, h2, h3⟩ := bit_reversal_permutation_ok x m hm hN
  refine ⟨y, h1, ?_⟩
  have hrev_lt : ∀ p, reverse_bits p (m : Int) < x.length := fun p => by
    rw [hN]; exact reverse_bits_lt p m hm
  let f : Fin x.length → Fin x.length := fun i => ⟨reverse_bits i (m : Int), hrev_lt i⟩
  have hf : Function.Involutive f := by
    intro i
    apply Fin.ext
    show reverse_bits (reverse_bits i (m : Int)) (m : Int) = i
    exact reverse_bits_involutive i m hm (by rw [← hN]; exact i.isLt)
  have hy : y = List.ofFn ((fun i : Fin x.length => x[i]) ∘ hf.toPerm) := by
    apply List.ext_getElem
    · rw [List.length_ofFn, h2]
    · intro n hn1 hn2
      have hn : n < x.length := by omega
      have := h3 n hn
      rw [List.getElem?_eq_getElem hn1, List.getElem?_eq_getElem (hrev_lt n)] at this
      rw [List.getElem_ofFn]
      exact Option.some.inj this
  have hx : x = List.ofFn (fun i : Fin x.length => x[i]) := by
    apply List.ext_getElem
    · rw [List.length_ofFn]
    · intro n hn1 hn2
      rw [List.getElem_ofFn]
      rfl
  have hp := Equiv.Perm.ofFn_comp_perm hf.toPerm (fun i : Fin x.length => x[i])
  rw [← hy, ← hx] at hp
  exact hp

/-- C7: on a vector `x` of length `N = 2^m < 2^31` the bit-reversal permutation loop of
`optimized_fft` completes and leaves `x'[i] = x[reverse_bits(i, m)]` for every `i < N`.
The pass for `i` swaps exactly when `i < r`, `r = reverse_bits(i, m)`; since `r < N` and
`reverse_bits(r, m) = i`, exactly one of the passes `i` and `r` swaps when `i ≠ r`, and none
when `i = r`. -/
theorem bit_reversal_permutation_spec {α : Type} (x : List α) (m : Nat)
    (hN : x.length = 2 ^ m) (h31 : x.length < 2 ^ 31) :
    ∃ y, bit_reversal_permutation x (m : Int) = .ok y ∧ y.length = x.length ∧
      (∀ i, i < x.length → y[i]? = x[reverse_bits i (m : Int)]?) ∧
      (∀ i, i < x.length →
        reverse_bits i (m : Int) < x.length ∧
        reverse_bits (reverse_bits i (m : Int)) (m : Int) = i ∧
        (i ≠ reverse_bits i (m : Int) →
          ((i < reverse_bits i (m : Int) ∧
              ¬ reverse_bits i (m : Int) < reverse_bits (reverse_bits i (m : Int)) (m : Int)) ∨
           (¬ i < reverse_bits i (m : Int) ∧
              reverse_bits i (m : Int) < reverse_bits (reverse_bits i (m : Int)) (m : Int)))) ∧
        (i = reverse_bits i (m : Int) → ¬ i < reverse_bits i (m : Int))) := by
  have hm : m ≤ 32 := by
    by_contra hc
    have : (2:Nat) ^ 31 ≤ 2 ^ m := Nat.pow_le_pow_right (by norm_num) (by omega)
    omega
  obtain ⟨y, h1, h2, h3⟩ := bit_reversal_permutation_ok x m hm hN
  refine ⟨y, h1, h2, h3, ?_⟩
  intro i hi
  have hr : reverse_bits i (m : Int) < x.length := by rw [hN]; exact reverse_bits_lt i m hm
  have hinv : reverse_bits (reverse_bits i (m : Int)) (m : Int) = i :=
    reverse_bits_involutive i m hm (by rw [← hN]; exact hi)
  refine ⟨hr, hinv, ?_, ?_⟩
  · intro hne
    rw [hinv]
    omega
  · intro he
    omega

/-- Witness for C7: a vector of length four. -/
theorem bit_reversal_permutation_spec_witness :
    ∃ y, bit_reversal_permutation [10, 11, 12, 13] ((2 : Nat) : Int) = .ok y ∧
      y.length = [10, 11, 12, 13].length ∧
      (∀ i, i < [10, 11, 12, 13].length →
        y[i]? = [10, 11, 12, 13][reverse_bits i ((2 : Nat) : Int)]?) := by
  obtain ⟨y, h1, h2, h3, _⟩ :=
    bit_reversal_permutation_spec [10, 11, 12, 13] 2 (by simp) (by simp)
  exact ⟨y, h1, h2, h3⟩

/-- C8: for `N = 2^m` the permutation step of `optimized_fft` applied to `[0, 1, ..., N-1]`
yields a sequence of length `N` that contains each value of `[0, N)` exactly once and nothing
else; in general the permuted sequence is a rearrangement of the input. -/
theorem bit_reversal_permutation_bijection (m : Nat) (hm : m ≤ 32) :
    (∃ y, bit_reversal_permutation (List.range (2 ^ m)) (m : Int) = .ok y ∧
      y.length = 2 ^ m ∧ (∀ v, v < 2 ^ m → y.count v = 1) ∧ (∀ v, v ∈ y → v < 2 ^ m)) ∧
    (∀ (α : Type) (x : List α), x.length = 2 ^ m →
      ∃ y, bit_reversal_permutation x (m : Int) = .ok y ∧ y.Perm x) := by
  constructor
  · obtain ⟨y, h1, h2⟩ := bit_reversal_permutation_perm (List.range (2 ^ m)) m hm (by simp)
    refine ⟨y, h1, ?_, ?_, ?_⟩
    · rw [h2.length_eq, List.length_range]
    · intro v hv
      rw [h2.count_eq]
      exact List.count_eq_one_of_mem (List.nodup_range _) (List.mem_range.mpr hv)
    · intro v hv
      exact List.mem_range.mp (h2.mem_iff.mp hv)
  · intro α x hx
    exact bit_reversal_permutation_perm x m hm hx

/-- Witness for C8: `N = 8`. -/
theorem bit_reversal_permutation_bijection_witness :
    ∃ y, bit_reversal_permutation (List.range (2 ^ 3)) ((3 : Nat) : Int) = .ok y ∧
      y.length = 2 ^ 3 ∧ (∀ v, v < 2 ^ 3 → y.count v = 1) ∧ (∀ v, v ∈ y → v < 2 ^ 3) :=
  (bit_reversal_permutation_bijection 3 (by norm_num)).1

/-! ## Twiddle factors -/

theorem polar_one (theta : ℝ) : polar 1 theta = Complex.exp ((theta : ℂ) * I) := by
  apply Complex.ext
  · rw [Complex.exp_ofReal_mul_I_re]; simp [polar]
  · rw [Complex.exp_ofReal_mul_I_im]; simp [polar]

theorem polar_naive (k n N : Nat) :
    polar 1 (-2 * PI * (k : ℝ) * (n : ℝ) / (N : ℝ)) = twiddle N (k * n) := by
  rw [polar_one, twiddle, PI]
  congr 2
  push_cast
  ring

theorem polar_recursive (k N : Nat) :
    polar 1 (-2 * PI * (k : ℝ) / (N : ℝ)) = twiddle N k := by
  rw [polar_one, twiddle, PI]

theorem polar_stage (len : Nat) : polar 1 (-2 * PI / (len : ℝ)) = twiddle len 1 := by
  rw [polar_one, twiddle, PI]
  congr 2
  push_cast
  ring

theorem twiddle_zero (n : Nat) : twiddle n 0 = 1 := by
  simp [twiddle]

theorem twiddle_add (n a b : Nat) : twiddle n (a + b) = twiddle n a * twiddle n b := by
  rw [twiddle, twiddle, twiddle, ← Complex.exp_add]
  congr 1
  push_cast
  ring

theorem twiddle_pow (n a j : Nat) : twiddle n a ^ j = twiddle n (a * j) := by
  rw [twiddle, twiddle, ← Complex.exp_nat_mul]
  congr 1
  push_cast
  ring

theorem twiddle_period (n a : Nat) (hn : 0 < n) : twiddle n (n * a) = 1 := by
  rw [twiddle]
  have hn' : (n : ℂ) ≠ 0 := by exact_mod_cast (Nat.pos_iff_ne_zero.mp hn)
  have : (((-2 * Real.pi * ((n * a : Nat) : ℝ) / (n : ℝ) : ℝ) : ℂ) * I)
      = ((-(a : Int) : Int) : ℂ) * (2 * Real.pi * I) := by
    push_cast
    field_simp
    ring
  rw [this, Complex.exp_int_mul_two_pi_mul_I]

theorem twiddle_double (h a : Nat) (hh : 0 < h) : twiddle (2 * h) (2 * a) = twiddle h a := by
  rw [twiddle, twiddle]
  have hh' : (h : ℂ) ≠ 0 := by exact_mod_cast (Nat.pos_iff_ne_zero.mp hh)
  congr 1
  push_cast
  field_simp
  ring

theorem twiddle_half (h : Nat) (hh : 0 < h) : twiddle (2 * h) h = -1 := by
  rw [twiddle]
  have hh' : (h : ℂ) ≠ 0 := by exact_mod_cast (Nat.pos_iff_ne_zero.mp hh)
  have : (((-2 * Real.pi * (h : ℝ) / ((2 * h : Nat) : ℝ) : ℝ) : ℂ) * I)
      = -((Real.pi : ℂ) * I) := by
    push_cast
    field_simp
    ring
  rw [this, Complex.exp_neg, Complex.exp_pi_mul_I]
  norm_num

/-! ## The even/odd decomposition of the transform -/

theorem sum_range_even_odd (f : Nat → ℂ) (h : Nat) :
    ∑ t in Finset.range (2 * h), f t
      = ∑ t in Finset.range h, f (2 * t) + ∑ t in Finset.range h, f (2 * t + 1) := by
  induction h with
  | zero => simp
  | succ h ih =>
    have e : 2 * (h + 1) = 2 * h + 1 + 1 := by ring
    rw [e, Finset.sum_range_succ, Finset.sum_range_succ, ih, Finset.sum_range_succ,
      Finset.sum_range_succ]
    ring

theorem twiddle_shift (h k t : Nat) (hh : 0 < h) :
    twiddle h ((k + h) * t) = twiddle h (k * t) := by
  have e : (k + h) * t = k * t + h * t := by ring
  rw [e, twiddle_add, twiddle_period h t hh, mul_one]

/-- The transform of `2·h` values from the transforms of the even and odd indexed halves:
first half of the coefficients. -/
theorem dft_coeff_low (z : Nat → ℂ) (h k : Nat) (hh : 0 < h) :
    dft_coeff z (2 * h) k
      = dft_coeff (fun t => z (2 * t)) h k
        + twiddle (2 * h) k * dft_coeff (fun t => z (2 * t + 1)) h k := by
  unfold dft_coeff
  rw [sum_range_even_odd, Finset.mul_sum]
  congr 1
  · apply Finset.sum_congr rfl
    intro t _
    have e : k * (2 * t) = 2 * (k * t) := by ring
    rw [e, twiddle_double _ _ hh]
  · apply Finset.sum_congr rfl
    intro t _
    have e : k * (2 * t + 1) = 2 * (k * t) + k := by ring
    rw [e, twiddle_add, twiddle_double _ _ hh]
    ring

/-- The transform of `2·h` values from the transforms of the even and odd indexed halves:
second half of the coefficients. -/
theorem dft_coeff_high (z : Nat → ℂ) (h k : Nat) (hh : 0 < h) :
    dft_coeff z (2 * h) (k + h)
      = dft_coeff (fun t => z (2 * t)) h k
        - twiddle (2 * h) k * dft_coeff (fun t => z (2 * t + 1)) h k := by
  unfold dft_coeff
  rw [sum_range_even_odd, Finset.mul_sum, sub_eq_add_neg, ← Finset.sum_neg_distrib]
  congr 1
  · apply Finset.sum_congr rfl
    intro t _
    have e : (k + h) * (2 * t) = 2 * ((k + h) * t) := by ring
    rw [e, twiddle_double _ _ hh, twiddle_shift h k t hh]
  · apply Finset.sum_congr rfl
    intro t _
    have e : (k + h) * (2 * t + 1) = 2 * ((k + h) * t) + (k + h) := by ring
    rw [e, twiddle_add, twiddle_double _ _ hh, twiddle_shift h k t hh, twiddle_add,
      twiddle_half h hh]
    ring

theorem dft_coeff_one (z : Nat → ℂ) (k : Nat) : dft_coeff z 1 k = z 0 := by
  simp [dft_coeff, twiddle_zero]

theorem dft_coeff_congr (z z' : Nat → ℂ) (n k : Nat) (h : ∀ t, t < n → z t = z' t) :
    dft_coeff z n k = dft_coeff z' n k := by
  unfold dft_coeff
  apply Finset.sum_congr rfl
  intro t ht
  rw [h t (Finset.mem_range.mp ht)]

/-! ## Lists as vectors of complex numbers -/

theorem list_eq_of_getD (a b : List ℂ) (hlen : a.length = b.length)
    (h : ∀ p, p < a.length → a.getD p 0 = b.getD p 0) : a = b := by
  apply List.ext_getElem hlen
  intro n h1 h2
  have := h n h1
  rw [List.getD_eq_getElem?_getD, List.getD_eq_getElem?_getD, List.getElem?_eq_getElem h1,
    List.getElem?_eq_getElem h2] at this
  simpa using this

theorem getD_replicate_zero (n p : Nat) : (List.replicate n (0 : ℂ)).getD p 0 = 0 := by
  rw [List.getD_eq_getElem?_getD, List.getElem?_replicate]
  by_cases h : p < n <;> simp [h]

theorem dft_list_length (x : List ℂ) : (dft_list x).length = x.length := by
  simp [dft_list]

theorem dft_list_getD (x : List ℂ) (k : Nat) (hk : k < x.length) :
    (dft_list x).getD k 0 = dft_coeff (fun t => x.getD t 0) x.length k := by
  rw [List.getD_eq_getElem?_getD, dft_list]
  simp [hk]

/-! ## `naive_dft` -/

/-- The inner loop of `naive_dft` adds the sum of all terms to `X[k]` and leaves the other
positions alone. -/
theorem naive_dft_inner (x X : List ℂ) (k : Nat) (hX : X.length = x.length)
    (hk : k < x.length) :
    ∃ X', (List.range x.length).foldlM
        (fun (X : List ℂ) (n : Nat) => do
          let theta : ℝ := -2 * PI * (k : ℝ) * (n : ℝ) / (x.length : ℝ)
          let twiddle_factor := polar 1 theta
          let xn ← vec_read x n
          let Xk ← vec_read X k
          vec_write X k (Xk + xn * twiddle_factor)) X = .ok X' ∧
      X'.length = x.length ∧
      X'.getD k 0 = X.getD k 0 + dft_coeff (fun t => x.getD t 0) x.length k ∧
      ∀ p, p ≠ k → X'.getD p 0 = X.getD p 0 := by
  have key := foldlM_range_inv
    (fun (X : List ℂ) (n : Nat) => do
          let theta : ℝ := -2 * PI * (k : ℝ) * (n : ℝ) / (x.length : ℝ)
          let twiddle_factor := polar 1 theta
          let xn ← vec_read x n
          let Xk ← vec_read X k
          vec_write X k (Xk + xn * twiddle_factor))
    (fun n (Y : List ℂ) => Y.length = x.length ∧
      Y.getD k 0 = X.getD k 0
        + ∑ t in Finset.range n, x.getD t 0 * twiddle x.length (k * t) ∧
      ∀ p, p ≠ k → Y.getD p 0 = X.getD p 0)
    x.length X ⟨hX, by simp, fun _ _ => rfl⟩
    (by
      intro n Y hn ⟨hlen, hYk, hY⟩
      simp only []
      rw [vec_read_getD x n hn]
      simp only [bind, Except.bind]
      rw [vec_read_getD Y k (by omega)]
      simp only []
      rw [vec_write_ok Y k _ (by omega)]
      refine ⟨_, rfl, by simp [hlen], ?_, ?_⟩
      · rw [getD_set _ _ _ _ (by omega), if_pos rfl, hYk, Finset.sum_range_succ, polar_naive]
        ring
      · intro p hp
        rw [getD_set _ _ _ _ (by omega), if_neg hp, hY p hp])
  exact key

/-- The loops of `naive_dft` complete and compute the transform coefficient by coefficient. -/
theorem naive_dft_eq (x : List ℂ) : naive_dft x = .ok (dft_list x) := by
  unfold naive_dft
  obtain ⟨X, hX, hlen, hval⟩ := foldlM_range_inv
    (fun (X : List ℂ) (k : Nat) =>
      (List.range x.length).foldlM
        (fun (X : List ℂ) (n : Nat) => do
          let theta : ℝ := -2 * PI * (k : ℝ) * (n : ℝ) / (x.length : ℝ)
          let twiddle_factor := polar 1 theta
          let xn ← vec_read x n
          let Xk ← vec_read X k
          vec_write X k (Xk + xn * twiddle_factor)) X)
    (fun k (Y : List ℂ) => Y.length = x.length ∧
      ∀ p, p < x.length → Y.getD p 0 =
        if p < k then dft_coeff (fun t => x.getD t 0) x.length p else 0)
    x.length (List.replicate x.length 0)
    ⟨by simp, fun p _ => by rw [getD_replicate_zero]; simp⟩
    (by
      intro k Y hk ⟨hlen, hY⟩
      obtain ⟨Y', h1, h2, h3, h4⟩ := naive_dft_inner x Y k hlen hk
      refine ⟨Y', h1, h2, ?_⟩
      intro p hp
      by_cases hpk : p = k
      · subst hpk
        rw [h3, hY p hp, if_neg (by omega), if_pos (by omega), zero_add]
      · rw [h4 p hpk, hY p hp]
        have : p < k + 1 ↔ p < k := by omega
        simp only [this])
  simp only []
  rw [hX]
  congr 1
  apply list_eq_of_getD
  · rw [hlen, dft_list_length]
  · intro p hp
    rw [hlen] at hp
    rw [hval p hp, if_pos hp, dft_list_getD x p hp]

/-! ## `recursive_fft` -/

theorem split_step_ok (x : List ℂ) (s : List ℂ × List ℂ) (i : Nat)
    (hx : 2 * i + 1 < x.length) (h1 : i < s.1.length) (h2 : i < s.2.length) :
    split_step x s i
      = .ok (s.1.set i (x.getD (2 * i) 0), s.2.set i (x.getD (2 * i + 1) 0)) := by
  unfold split_step
  rw [vec_read_getD x (2 * i) (by omega), vec_read_getD x (2 * i + 1) hx]
  simp only [bind, Except.bind]
  rw [vec_write_ok _ _ _ h1]
  simp only []
  rw [vec_write_ok _ _ _ h2]
  rfl

/-- The first `N / 2` passes of the split loop succeed, for every length `N`. -/
theorem split_loop_passes (x : List ℂ) (k : Nat) (hk : k ≤ x.length / 2) :
    ∃ s, (List.range k).foldlM (split_step x)
        (List.replicate (x.length / 2) 0, List.replicate (x.length / 2) 0) = .ok s ∧
      s.1.length = x.length / 2 ∧ s.2.length = x.length / 2 ∧
      ∀ i, i < k → s.1.getD i 0 = x.getD (2 * i) 0 ∧ s.2.getD i 0 = x.getD (2 * i + 1) 0 := by
  apply foldlM_range_inv (split_step x)
    (fun k (s : List ℂ × List ℂ) => s.1.length = x.length / 2 ∧ s.2.length = x.length / 2 ∧
      ∀ i, i < k → s.1.getD i 0 = x.getD (2 * i) 0 ∧ s.2.getD i 0 = x.getD (2 * i + 1) 0)
  · exact ⟨by simp, by simp, fun i hi => absurd hi (Nat.not_lt_zero i)⟩
  · intro i s hi ⟨h1, h2, h3⟩
    rw [split_step_ok x s i (by omega) (by omega) (by omega)]
    refine ⟨_, rfl, by simp [h1], by simp [h2], ?_⟩
    intro p hp
    simp only []
    rw [getD_set _ _ _ _ (by omega), getD_set _ _ _ _ (by omega)]
    by_cases hpi : p = i
    · subst hpi; simp
    · rw [if_neg hpi, if_neg hpi]
      exact h3 p (by omega)

/-- On a vector of even length the split loop completes. -/
theorem split_loop_even (x : List ℂ) (hev : x.length % 2 = 0) :
    ∃ even odd, split_loop x = .ok (even, odd) ∧
      even.length = x.length / 2 ∧ odd.length = x.length / 2 ∧
      ∀ i, i < x.length / 2 →
        even.getD i 0 = x.getD (2 * i) 0 ∧ odd.getD i 0 = x.getD (2 * i + 1) 0 := by
  obtain ⟨s, h1, h2, h3, h4⟩ := split_loop_passes x (x.length / 2) (le_refl _)
  refine ⟨s.1, s.2, ?_, h2, h3, h4⟩
  unfold split_loop
  simp only []
  have e : (x.length + 1) / 2 = x.length / 2 := by omega
  rw [e, h1]

/-- On a vector of odd length the pass `i = (N - 1) / 2` of the split loop writes
`even[N / 2]`, outside of `even`. -/
theorem split_loop_odd (x : List ℂ) (hodd : x.length % 2 = 1) :
    split_loop x = .error .out_of_range := by
  obtain ⟨s, h1, h2, h3, _⟩ := split_loop_passes x (x.length / 2) (le_refl _)
  unfold split_loop
  simp only []
  have e : (x.length + 1) / 2 = x.length / 2 + 1 := by omega
  rw [e, List.range_succ, List.foldlM_append, h1]
  simp only [bind, Except.bind, List.foldlM_cons, List.foldlM_nil]
  unfold split_step
  rw [vec_read_getD x _ (by omega)]
  simp only [bind, Except.bind]
  rw [vec_write_error _ _ _ (by omega)]

theorem recursive_fft_base (x : List ℂ) (hN : x.length ≤ 1) : recursive_fft x = .ok x := by
  rw [recursive_fft]
  simp [hN]

theorem recursive_fft_split_error (x : List ℂ) (hN : ¬ x.length ≤ 1) (e : Fault)
    (hs : split_loop x = .error e) : recursive_fft x = .error e := by
  rw [recursive_fft]
  simp only [hN, dite_false]
  split
  · next e' he => rw [hs] at he; cases he; rfl
  · next even odd he => rw [hs] at he; cases he

theorem recursive_fft_step (x : List ℂ) (hN : ¬ x.length ≤ 1) (even odd : List ℂ)
    (hs : split_loop x = .ok (even, odd)) :
    recursive_fft x = (do
      let x_even ← recursive_fft even
      let x_odd ← recursive_fft odd
      combine_loop x.length x_even x_odd) := by
  rw [recursive_fft]
  simp only [hN, dite_false]
  split
  · next e' he => rw [hs] at he; cases he
  · next even' odd' he =>
    rw [hs] at he
    cases he
    rfl

theorem getD_set_ite (v : List ℂ) (i p : Nat) (a : ℂ) :
    (v.set i a).getD p 0 = if p = i ∧ i < v.length then a else v.getD p 0 := by
  by_cases h : i < v.length
  · rw [getD_set v i p a h]
    by_cases hp : p = i <;> simp [hp, h]
  · rw [List.set_eq_of_length_le (by omega)]
    simp [h]

/-- The combine loop on two vectors of length `h` with `N = 2·h`. -/
theorem combine_loop_ok (h : Nat) (x_even x_odd : List ℂ) (he : x_even.length = h)
    (ho : x_odd.length = h) :
    ∃ r, combine_loop (2 * h) x_even x_odd = .ok r ∧ r.length = 2 * h ∧
      ∀ k, k < h →
        r.getD k 0 = x_even.getD k 0 + twiddle (2 * h) k * x_odd.getD k 0 ∧
        r.getD (k + h) 0 = x_even.getD k 0 - twiddle (2 * h) k * x_odd.getD k 0 := by
  unfold combine_loop
  have e : 2 * h / 2 = h := by omega
  rw [e]
  apply foldlM_range_inv _
    (fun n (r : List ℂ) => r.length = 2 * h ∧
      ∀ k, k < n →
        r.getD k 0 = x_even.getD k 0 + twiddle (2 * h) k * x_odd.getD k 0 ∧
        r.getD (k + h) 0 = x_even.getD k 0 - twiddle (2 * h) k * x_odd.getD k 0)
  · exact ⟨by simp, fun k hk => absurd hk (Nat.not_lt_zero k)⟩
  · intro k r hk ⟨hlen, hr⟩
    simp only []
    rw [vec_read_getD x_odd k (by omega)]
    simp only [bind, Except.bind]
    rw [vec_read_getD x_even k (by omega)]
    simp only []
    rw [vec_write_ok r k _ (by omega)]
    simp only []
    rw [vec_write_ok _ (k + h) _ (by rw [List.length_set]; omega)]
    refine ⟨_, rfl, by simp [hlen], ?_⟩
    intro p hp
    simp only [getD_set_ite, List.length_set]
    by_cases hpk : p = k
    · subst hpk
      rw [if_neg (by omega), if_pos (by omega), if_pos (by omega), polar_recursive]
      exact ⟨rfl, rfl⟩
    · rw [if_neg (by omega), if_neg (by omega), if_neg (by omega), if_neg (by omega)]
      exact hr p (by omega)

theorem dft_list_single (x : List ℂ) (hN : x.length = 1) : dft_list x = x := by
  apply list_eq_of_getD
  · rw [dft_list_length]
  · intro p hp
    rw [dft_list_length] at hp
    rw [dft_list_getD x p hp, hN, dft_coeff_one]
    have : p = 0 := by omega
    rw [this]

/-- Combining the transforms of the even and odd indexed halves gives the transform. -/
theorem combine_dft (x even odd r : List ℂ) (h : Nat) (hh : 0 < h) (hx : x.length = 2 * h)
    (he : even.length = h) (ho : odd.length = h)
    (hsplit : ∀ i, i < h →
      even.getD i 0 = x.getD (2 * i) 0 ∧ odd.getD i 0 = x.getD (2 * i + 1) 0)
    (hr : r.length = 2 * h)
    (hval : ∀ k, k < h →
      r.getD k 0 = (dft_list even).getD k 0 + twiddle (2 * h) k * (dft_list odd).getD k 0 ∧
      r.getD (k + h) 0
        = (dft_list even).getD k 0 - twiddle (2 * h) k * (dft_list odd).getD k 0) :
    r = dft_list x := by
  have hE : ∀ k, k < h → (dft_list even).getD k 0
      = dft_coeff (fun t => x.getD (2 * t) 0) h k := by
    intro k hk
    rw [dft_list_getD even k (by omega), he]
    exact dft_coeff_congr _ _ _ _ (fun t ht => (hsplit t ht).1)
  have hO : ∀ k, k < h → (dft_list odd).getD k 0
      = dft_coeff (fun t => x.getD (2 * t + 1) 0) h k := by
    intro k hk
    rw [dft_list_getD odd k (by omega), ho]
    exact dft_coeff_congr _ _ _ _ (fun t ht => (hsplit t ht).2)
  apply list_eq_of_getD
  · rw [hr, dft_list_length, hx]
  · intro p hp
    rw [hr] at hp
    rw [dft_list_getD x p (by omega), hx]
    by_cases hph : p < h
    · rw [(hval p hph).1, hE p hph, hO p hph,
        dft_coeff_low (fun t => x.getD t 0) h p hh]
    · obtain ⟨k, rfl⟩ : ∃ k, p = k + h := ⟨p - h, by omega⟩
      have hk : k < h := by omega
      rw [(hval k hk).2, hE k hk, hO k hk,
        dft_coeff_high (fun t => x.getD t 0) h k hh]

/-- On a vector of length `2^m`, `recursive_fft` completes and returns the transform. -/
theorem recursive_fft_eq (m : Nat) (x : List ℂ) (hN : x.length = 2 ^ m) :
    recursive_fft x = .ok (dft_list x) := by
  induction m generalizing x with
  | zero =>
    rw [recursive_fft_base x (by rw [hN]; simp), dft_list_single x (by rw [hN]; simp)]
  | succ m ih =>
    have hpos : 0 < 2 ^ m := Nat.pos_pow_of_pos m (by norm_num)
    have hx : x.length = 2 * 2 ^ m := by rw [hN, pow_succ]; ring
    obtain ⟨even, odd, hs, he, ho, hsplit⟩ := split_loop_even x (by omega)
    have he' : even.length = 2 ^ m := by omega
    have ho' : odd.length = 2 ^ m := by omega
    rw [recursive_fft_step x (by omega) even odd hs, ih even he', ih odd ho']
    simp only [bind, Except.bind]
    rw [hx]
    obtain ⟨r, hr1, hr2, hr3⟩ := combine_loop_ok (2 ^ m) (dft_list even) (dft_list odd)
      (by rw [dft_list_length, he']) (by rw [dft_list_length, ho'])
    rw [hr1]
    congr 1
    exact combine_dft x even odd r (2 ^ m) hpos hx he' ho'
      (fun i hi => hsplit i (by omega)) hr2 hr3

theorem twiddle_eq_exp (N k n : Nat) :
    twiddle N (k * n)
      = Complex.exp (-(I * 2 * (Real.pi : ℂ) * (k : ℂ) * (n : ℂ) / (N : ℂ))) := by
  rw [twiddle]
  congr 1
  push_cast
  ring

/-- C3: for every input `x` of any length `N`, `naive_dft` completes with a vector `X` of
length `N` and, for every `k < N`, `X[k]` is the sum over `n < N` of
`x[n] · exp(-i·2π·k·n/N)`. -/
theorem naive_dft_spec (x : List ℂ) :
    ∃ X, naive_dft x = .ok X ∧ X.length = x.length ∧
      ∀ k, k < x.length →
        X[k]? = some (∑ n in Finset.range x.length,
          x.getD n 0 * Complex.exp
            (-(I * 2 * (Real.pi : ℂ) * (k : ℂ) * (n : ℂ) / (x.length : ℂ)))) := by
  refine ⟨dft_list x, naive_dft_eq x, dft_list_length x, ?_⟩
  intro k hk
  have h1 := dft_list_getD x k hk
  rw [List.getD_eq_getElem?_getD,
    List.getElem?_eq_getElem (by rw [dft_list_length]; exact hk)] at h1
  rw [List.getElem?_eq_getElem (by rw [dft_list_length]; exact hk)]
  simp only [Option.getD_some] at h1
  rw [h1, dft_coeff]
  congr 1
  apply Finset.sum_congr rfl
  intro n _
  rw [twiddle_eq_exp]

/-- C2: for every input `x` of length `N = 2^m`, `naive_dft` and `recursive_fft` both
complete, with vectors `X` and `Y` of length `N`, and `Y = recursive_fft(x)` equals
`X = naive_dft(x)` element by element. -/
theorem recursive_fft_agrees_with_naive_dft (m : Nat) (x : List ℂ) (hN : x.length = 2 ^ m) :
    ∃ X Y, naive_dft x = .ok X ∧ recursive_fft x = .ok Y ∧
      X.length = x.length ∧ Y.length = x.length ∧ (∀ k, k < x.length → Y[k]? = X[k]?) ∧
      Y = X :=
  ⟨dft_list x, dft_list x, naive_dft_eq x, recursive_fft_eq m x hN,
    dft_list_length x, dft_list_length x, fun _ _ => rfl, rfl⟩

/-- Witness for C2: a vector of length two. -/
theorem recursive_fft_agrees_with_naive_dft_witness :
    ∃ X Y, naive_dft [1, I] = .ok X ∧ recursive_fft [1, I] = .ok Y ∧ Y = X := by
  obtain ⟨X, Y, h1, h2, _, _, _, h3⟩ := recursive_fft_agrees_with_naive_dft 1 [1, I] (by simp)
  exact ⟨X, Y, h1, h2, h3⟩

theorem not_pow_half (N : Nat) (h1 : 1 < N) (hev : N % 2 = 0)
    (hp : ¬ (N = 0 ∨ ∃ k, N = 2 ^ k)) : ¬ (N / 2 = 0 ∨ ∃ k, N / 2 = 2 ^ k) := by
  rintro (h0 | ⟨k, hk⟩)
  · omega
  · apply hp
    right
    exact ⟨k + 1, by rw [pow_succ]; omega⟩

/-- On a vector whose length is neither `0` nor a power of two, `recursive_fft` indexes a
vector out of range: following the even halves it comes to a vector of odd length above `1`. -/
theorem recursive_fft_fault (x : List ℂ) (hp : ¬ (x.length = 0 ∨ ∃ k, x.length = 2 ^ k)) :
    recursive_fft x = .error .out_of_range ∧
    ∃ y, Relation.ReflTransGen
        (fun a b : List ℂ => 1 < a.length ∧ ∃ odd, split_loop a = .ok (b, odd)) x y ∧
      1 < y.length ∧ y.length % 2 = 1 := by
  have main : ∀ n (x : List ℂ), x.length = n → ¬ (x.length = 0 ∨ ∃ k, x.length = 2 ^ k) →
      recursive_fft x = .error .out_of_range ∧
      ∃ y, Relation.ReflTransGen
          (fun a b : List ℂ => 1 < a.length ∧ ∃ odd, split_loop a = .ok (b, odd)) x y ∧
        1 < y.length ∧ y.length % 2 = 1 := by
    intro n
    induction n using Nat.strong_induction_on with
    | _ n ih =>
    intro x hn hp
    have h1 : 1 < x.length := by
      by_contra hc
      apply hp
      have : x.length = 0 ∨ x.length = 1 := by omega
      rcases this with h | h
      · exact Or.inl h
      · exact Or.inr ⟨0, by simpa using h⟩
    by_cases hodd : x.length % 2 = 1
    · exact ⟨recursive_fft_split_error x (by omega) _ (split_loop_odd x hodd),
        x, Relation.ReflTransGen.refl, h1, hodd⟩
    · have hev : x.length % 2 = 0 := by omega
      obtain ⟨even, odd, hs, he, ho, _⟩ := split_loop_even x hev
      have hp' : ¬ (even.length = 0 ∨ ∃ k, even.length = 2 ^ k) := by
        rw [he]; exact not_pow_half x.length h1 hev hp
      obtain ⟨hf, y, hy1, hy2, hy3⟩ := ih even.length (by omega) even rfl hp'
      refine ⟨?_, y, Relation.ReflTransGen.head ⟨h1, odd, hs⟩ hy1, hy2, hy3⟩
      rw [recursive_fft_step x (by omega) even odd hs, hf]
      rfl
  exact main x.length x rfl hp

/-- C6: `recursive_fft` completes without an out-of-range access exactly when the length `N`
of its input is `0` or a power of two.  Otherwise it faults, and following the even halves the
recursion comes to a vector of odd length above `1`.  For odd `N > 1` the split loop reaches
the pass `i = (N - 1) / 2 = N / 2`, where `even[N / 2]`, `odd[N / 2]` (both of length
`N / 2`) and `x[N]` are out of range. -/
theorem recursive_fft_in_range_iff (x : List ℂ) :
    ((∃ y, recursive_fft x = .ok y) ↔ (x.length = 0 ∨ ∃ k, x.length = 2 ^ k)) ∧
    (¬ (x.length = 0 ∨ ∃ k, x.length = 2 ^ k) →
      recursive_fft x = .error .out_of_range ∧
      ∃ y, Relation.ReflTransGen
          (fun a b : List ℂ => 1 < a.length ∧ ∃ odd, split_loop a = .ok (b, odd)) x y ∧
        1 < y.length ∧ y.length % 2 = 1) ∧
    (1 < x.length → x.length % 2 = 1 →
      2 * ((x.length - 1) / 2) < x.length ∧
      (x.length - 1) / 2 = x.length / 2 ∧
      2 * ((x.length - 1) / 2) + 1 = x.length ∧
      (∃ s, (List.range ((x.length - 1) / 2)).foldlM (split_step x)
            (List.replicate (x.length / 2) 0, List.replicate (x.length / 2) 0) = .ok s ∧
        s.1.length = x.length / 2 ∧ s.2.length = x.length / 2 ∧
        (∀ a, vec_write s.1 ((x.length - 1) / 2) a = .error .out_of_range) ∧
        (∀ a, vec_write s.2 ((x.length - 1) / 2) a = .error .out_of_range) ∧
        split_step x s ((x.length - 1) / 2) = .error .out_of_range) ∧
      vec_read x (2 * ((x.length - 1) / 2) + 1) = .error .out_of_range ∧
      split_loop x = .error .out_of_range ∧
      recursive_fft x = .error .out_of_range) := by
  refine ⟨⟨?_, ?_⟩, recursive_fft_fault x, ?_⟩
  · rintro ⟨y, hy⟩
    by_contra hc
    rw [(recursive_fft_fault x hc).1] at hy
    cases hy
  · rintro (h0 | ⟨k, hk⟩)
    · exact ⟨x, recursive_fft_base x (by omega)⟩
    · exact ⟨dft_list x, recursive_fft_eq k x hk⟩
  · intro h1 hodd
    have e : (x.length - 1) / 2 = x.length / 2 := by omega
    obtain ⟨s, hs1, hs2, hs3, _⟩ := split_loop_passes x (x.length / 2) (le_refl _)
    refine ⟨by omega, e, by omega, ⟨s, by rw [e]; exact hs1, hs2, hs3, ?_, ?_, ?_⟩, ?_,
      split_loop_odd x hodd,
      recursive_fft_split_error x (by omega) _ (split_loop_odd x hodd)⟩
    · intro a
      exact vec_write_error _ _ _ (by omega)
    · intro a
      exact vec_write_error _ _ _ (by omega)
    · unfold split_step
      rw [vec_read_getD x _ (by omega)]
      simp only [bind, Except.bind]
      rw [vec_write_error _ _ _ (by omega)]
    · exact vec_read_error _ _ (by omega)

/-! ## `optimized_fft` -/

theorem index_conv (n : Nat) (h : n < 2 ^ 31) : to_size_t (to_int (n : Int)) = n := by
  rw [to_int_small n h, to_size_t_small n (by omega)]

theorem num_bits_loop_ok (m : Nat) (hm : m ≤ 30) (c b : Nat) (hb : b + c = m) :
    num_bits_loop (2 ^ m) b = .ok m := by
  induction c generalizing b with
  | zero =>
    have : b = m := by omega
    subst this
    rw [num_bits_loop]
    have h1 : b < 32 := by omega
    have h2 : (2:Nat) ^ b < 2 ^ 31 := Nat.pow_lt_pow_right (by norm_num) (by omega)
    rw [dif_pos h1, Nat.one_shiftLeft, index_conv _ h2, if_neg (lt_irrefl _)]
  | succ c ih =>
    rw [num_bits_loop]
    have h1 : b < 32 := by omega
    have h2 : (2:Nat) ^ b < 2 ^ 31 := Nat.pow_lt_pow_right (by norm_num) (by omega)
    have h3 : (2:Nat) ^ b < 2 ^ m := Nat.pow_lt_pow_right (by norm_num) (by omega)
    rw [dif_pos h1, Nat.one_shiftLeft, index_conv _ h2, if_pos h3]
    exact ih (b + 1) (by omega)

theorem butterfly_ok (w_len : ℂ) (h i j : Nat) (s : List ℂ × ℂ)
    (hj : i + j + h < s.1.length) (h31 : s.1.length < 2 ^ 31) (hh : 0 < h) :
    butterfly w_len h i s j
      = .ok ((s.1.set (i + j) (s.1.getD (i + j) 0 + s.2 * s.1.getD (i + j + h) 0)).set
          (i + j + h) (s.1.getD (i + j) 0 - s.2 * s.1.getD (i + j + h) 0), s.2 * w_len) := by
  unfold butterfly
  simp only []
  rw [index_conv (i + j) (by omega), index_conv (i + j + h) (by omega),
    vec_read_getD s.1 (i + j) (by omega)]
  simp only [bind, Except.bind]
  rw [vec_read_getD s.1 (i + j + h) (by omega)]
  simp only []
  rw [vec_write_ok s.1 (i + j) _ (by omega)]
  simp only []
  rw [vec_write_ok _ (i + j + h) _ (by rw [List.length_set]; omega)]
  rfl

/-- The state of the inner loop after `n` passes on the block starting at `i`. -/
theorem butterfly_loop_inv (w_len : ℂ) (h i : Nat) (x : List ℂ) (hh : 0 < h)
    (hi : i + 2 * h ≤ x.length) (h31 : x.length < 2 ^ 31) (n : Nat) (hn : n ≤ h) :
    ∃ s, (List.range n).foldlM (butterfly w_len h i) (x, 1) = .ok s ∧
      s.2 = w_len ^ n ∧ s.1.length = x.length ∧
      ∀ p, s.1.getD p 0 =
        if i ≤ p ∧ p < i + n then x.getD p 0 + w_len ^ (p - i) * x.getD (p + h) 0
        else if i + h ≤ p ∧ p < i + h + n then
          x.getD (p - h) 0 - w_len ^ (p - h - i) * x.getD p 0
        else x.getD p 0 := by
  apply foldlM_range_inv (butterfly w_len h i)
    (fun n (s : List ℂ × ℂ) => s.2 = w_len ^ n ∧ s.1.length = x.length ∧
      ∀ p, s.1.getD p 0 =
        if i ≤ p ∧ p < i + n then x.getD p 0 + w_len ^ (p - i) * x.getD (p + h) 0
        else if i + h ≤ p ∧ p < i + h + n then
          x.getD (p - h) 0 - w_len ^ (p - h - i) * x.getD p 0
        else x.getD p 0)
  · refine ⟨by simp, rfl, ?_⟩
    intro p
    rw [if_neg (by omega), if_neg (by omega)]
  · intro j s hj ⟨hw, hlen, hs⟩
    rw [butterfly_ok w_len h i j s (by omega) (by omega) hh]
    refine ⟨_, rfl, ?_, by simp [hlen], ?_⟩
    · simp only []
      rw [hw, pow_succ]
    · intro p
      simp only [getD_set_ite, List.length_set]
      have hu : s.1.getD (i + j) 0 = x.getD (i + j) 0 := by
        rw [hs, if_neg (by omega), if_neg (by omega)]
      have hv : s.1.getD (i + j + h) 0 = x.getD (i + j + h) 0 := by
        rw [hs, if_neg (by omega), if_neg (by omega)]
      by_cases h1 : p = i + j
      · subst h1
        rw [if_neg (by omega), if_pos (by omega), if_pos (by omega), hu, hv, hw]
        have : i + j - i = j := by omega
        rw [this]
      · by_cases h2 : p = i + j + h
        · subst h2
          rw [if_pos (by omega), if_neg (by omega), if_pos (by omega), hu, hv, hw]
          have e1 : i + j + h - h = i + j := by omega
          have e2 : i + j - i = j := by omega
          rw [e1, e2]
        · rw [if_neg (by omega), if_neg (by omega), hs p]
          have c1 : (i ≤ p ∧ p < i + (j + 1)) ↔ (i ≤ p ∧ p < i + j) := by omega
          have c2 : (i + h ≤ p ∧ p < i + h + (j + 1)) ↔ (i + h ≤ p ∧ p < i + h + j) := by omega
          simp only [c1, c2]

/-! ### Positions and blocks -/

theorem block_of_bounds (L b p : Nat) (h1 : b * L ≤ p) (h2 : p < b * L + L) :
    p / L = b ∧ p % L = p - b * L := by
  have hL : 0 < L := by omega
  have hd : p / L = b := Nat.div_eq_of_lt_le h1 (by rw [Nat.succ_mul]; exact h2)
  have hm := Nat.div_add_mod p L
  rw [hd, Nat.mul_comm] at hm
  exact ⟨hd, by omega⟩

theorem bounds_of_block (L p : Nat) (hL : 0 < L) :
    (p / L) * L ≤ p ∧ p < (p / L) * L + L ∧ p % L = p - (p / L) * L := by
  have hm := Nat.div_add_mod p L
  have hr := Nat.mod_lt p hL
  rw [Nat.mul_comm] at hm
  omega

theorem block_add_half (h p : Nat) (hp : p % (2 * h) < h) :
    (p + h) / (2 * h) = p / (2 * h) ∧ (p + h) % (2 * h) = p % (2 * h) + h := by
  have hL : 0 < 2 * h := by omega
  obtain ⟨a1, a2, a3⟩ := bounds_of_block (2 * h) p hL
  obtain ⟨b1, b2⟩ := block_of_bounds (2 * h) (p / (2 * h)) (p + h) (by omega) (by omega)
  exact ⟨b1, by omega⟩

theorem block_sub_half (h p : Nat) (hp : h ≤ p % (2 * h)) :
    (p - h) / (2 * h) = p / (2 * h) ∧ (p - h) % (2 * h) = p % (2 * h) - h := by
  by_cases hL : 0 < 2 * h
  · obtain ⟨a1, a2, a3⟩ := bounds_of_block (2 * h) p hL
    obtain ⟨b1, b2⟩ := block_of_bounds (2 * h) (p / (2 * h)) (p - h) (by omega) (by omega)
    exact ⟨b1, by omega⟩
  · have : h = 0 := by omega
    subst this
    simp

/-- The inner loop transforms the block `b` and leaves every other position as it was. -/
theorem butterfly_loop_ok (w_len : ℂ) (h b : Nat) (x : List ℂ) (hh : 0 < h)
    (hb : b * (2 * h) + 2 * h ≤ x.length) (h31 : x.length < 2 ^ 31) :
    ∃ y, butterfly_loop w_len h (b * (2 * h)) x = .ok y ∧ y.length = x.length ∧
      ∀ p, y.getD p 0 =
        if p / (2 * h) = b then stage_value w_len h (fun t => x.getD t 0) p
        else x.getD p 0 := by
  obtain ⟨s, h1, _, h3, h4⟩ :=
    butterfly_loop_inv w_len h (b * (2 * h)) x hh hb h31 h (le_refl h)
  refine ⟨s.1, ?_, h3, ?_⟩
  · unfold butterfly_loop
    rw [h1]
    rfl
  · intro p
    rw [h4 p]
    have hL : 0 < 2 * h := by omega
    obtain ⟨a1, a2, a3⟩ := bounds_of_block (2 * h) p hL
    by_cases hpb : p / (2 * h) = b
    · rw [if_pos hpb]
      rw [hpb] at a1 a2 a3
      unfold stage_value
      by_cases hlow : p % (2 * h) < h
      · rw [if_pos (by omega), if_pos hlow, a3]
      · rw [if_neg (by omega), if_pos (by omega), if_neg hlow, a3]
        have : p - h - b * (2 * h) = p - b * (2 * h) - h := by omega
        rw [this]
    · rw [if_neg hpb]
      have hout : ¬ (b * (2 * h) ≤ p ∧ p < b * (2 * h) + 2 * h) := by
        rintro ⟨c1, c2⟩
        exact hpb (block_of_bounds (2 * h) b p c1 c2).1
      rw [if_neg (by omega), if_neg (by omega)]

theorem stage_value_congr (w : ℂ) (h : Nat) (X Y : Nat → ℂ) (p : Nat)
    (hXY : ∀ q, q / (2 * h) = p / (2 * h) → X q = Y q) :
    stage_value w h X p = stage_value w h Y p := by
  unfold stage_value
  by_cases hlow : p % (2 * h) < h
  · rw [if_pos hlow, if_pos hlow, hXY p rfl, hXY (p + h) (block_add_half h p hlow).1]
  · rw [if_neg hlow, if_neg hlow, hXY p rfl, hXY (p - h) (block_sub_half h p (by omega)).1]

/-- The middle loop entered at block `b` transforms the blocks `b, ..., B - 1`. -/
theorem block_loop_ok (w_len : ℂ) (h B N : Nat) (hh : 0 < h) (hN : N = B * (2 * h))
    (h31 : N < 2 ^ 31) (c : Nat) :
    ∀ (b : Nat) (x : List ℂ), b + c = B → x.length = N →
      ∃ y, block_loop w_len (2 * h) (by omega) N (b * (2 * h)) x = .ok y ∧ y.length = N ∧
        ∀ p, y.getD p 0 =
          if b ≤ p / (2 * h) ∧ p / (2 * h) < B
          then stage_value w_len h (fun t => x.getD t 0) p
          else x.getD p 0 := by
  induction c with
  | zero =>
    intro b x hb hx
    have : b = B := by omega
    subst this
    refine ⟨x, ?_, hx, ?_⟩
    · rw [block_loop, dif_neg (by omega)]
    · intro p
      rw [if_neg (by omega)]
  | succ c ih =>
    intro b x hb hx
    have hBb : B * (2 * h) = b * (2 * h) + (c + 1) * (2 * h) := by
      rw [← hb]; ring
    have hc : (c + 1) * (2 * h) = c * (2 * h) + 2 * h := by ring
    have hlt : b * (2 * h) < N := by omega
    obtain ⟨y1, e1, l1, v1⟩ := butterfly_loop_ok w_len h b x hh (by omega) (by omega)
    have hnext : b * (2 * h) + 2 * h = (b + 1) * (2 * h) := by ring
    obtain ⟨y, e2, l2, v2⟩ := ih (b + 1) y1 (by omega) (by omega)
    refine ⟨y, ?_, l2, ?_⟩
    · rw [block_loop, dif_pos hlt]
      have hhalf : 2 * h / 2 = h := by omega
      simp only [hhalf, bind, Except.bind, e1]
      simp only [hnext]
      exact e2
    · intro p
      rw [v2 p]
      by_cases hpb : p / (2 * h) = b
      · rw [if_neg (by omega), if_pos (by omega), v1 p, if_pos hpb]
      · by_cases hin : b + 1 ≤ p / (2 * h) ∧ p / (2 * h) < B
        · rw [if_pos hin, if_pos (by omega)]
          apply stage_value_congr
          intro q hq
          show y1.getD q 0 = x.getD q 0
          rw [v1 q, if_neg (by omega)]
        · rw [if_neg hin, if_neg (by omega), v1 p, if_neg hpb]

/-! ### Bit reversal of `2·b` and `2·b + 1` -/

theorem reverse_bits_double (b n : Nat) (hn : n + 1 ≤ 32) :
    reverse_bits (2 * b) ((n + 1 : Nat) : Int) = reverse_bits b (n : Int) := by
  apply Nat.eq_of_testBit_eq
  intro j
  rw [reverse_bits_testBit _ (n + 1) hn, reverse_bits_testBit _ n (by omega)]
  by_cases hj : j < n
  · have e : n + 1 - 1 - j = (n - 1 - j) + 1 := by omega
    have h2 : 2 * b / 2 = b := by omega
    rw [e, Nat.testBit_succ, h2]
    have : j < n + 1 := by omega
    simp [hj, this]
  · by_cases hjn : j = n
    · subst hjn
      simp [Nat.testBit_zero]
    · have : ¬ j < n + 1 := by omega
      simp [hj, this]

theorem reverse_bits_double_succ (b n : Nat) (hn : n + 1 ≤ 32) :
    reverse_bits (2 * b + 1) ((n + 1 : Nat) : Int) = 2 ^ n + reverse_bits b (n : Int) := by
  have hr : reverse_bits b (n : Int) < 2 ^ n := reverse_bits_lt b n (by omega)
  apply Nat.eq_of_testBit_eq
  intro j
  rw [reverse_bits_testBit _ (n + 1) hn]
  by_cases hj : j < n
  · have e : n + 1 - 1 - j = (n - 1 - j) + 1 := by omega
    have h2 : (2 * b + 1) / 2 = b := by omega
    rw [e, Nat.testBit_succ, h2, Nat.testBit_two_pow_add_gt hj,
      reverse_bits_testBit _ n (by omega)]
    have : j < n + 1 := by omega
    simp [hj, this]
  · by_cases hjn : j = n
    · subst hjn
      rw [Nat.testBit_two_pow_add_eq, Nat.testBit_lt_two_pow hr]
      simp [Nat.testBit_zero]
      omega
    · have h1 : ¬ j < n + 1 := by omega
      have h3 : 2 ^ n + reverse_bits b (n : Int) < 2 ^ j := by
        have : 2 ^ (n + 1) ≤ 2 ^ j := Nat.pow_le_pow_right (by norm_num) (by omega)
        rw [pow_succ] at this
        omega
      rw [Nat.testBit_lt_two_pow h3]
      simp [h1]

/-! ### One stage -/

/-- One butterfly stage carries the invariant from block length `2^s` to `2^(s + 1)`. -/
theorem stage_invariant_step (X : Nat → ℂ) (s n : Nat) (hn : n + 1 ≤ 32) (y y' : List ℂ)
    (hy : stage_invariant X s (n + 1) y) (hlen : y'.length = y.length)
    (hval : ∀ p, y'.getD p 0 =
      if 0 ≤ p / (2 * 2 ^ s) ∧ p / (2 * 2 ^ s) < 2 ^ n
      then stage_value (twiddle (2 * 2 ^ s) 1) (2 ^ s) (fun t => y.getD t 0) p
      else y.getD p 0) :
    stage_invariant X (s + 1) n y' := by
  obtain ⟨hylen, hyv⟩ := hy
  have hh : 0 < 2 ^ s := Nat.pos_pow_of_pos s (by norm_num)
  constructor
  · rw [hlen, hylen]
    congr 1
    omega
  · intro b k hb hk
    have hpow : 2 ^ (s + 1) = 2 * 2 ^ s := by rw [pow_succ]; ring
    have hpown : 2 ^ (n + 1) = 2 * 2 ^ n := by rw [pow_succ]; ring
    rw [hpow] at hk ⊢
    obtain ⟨hd, hm⟩ := block_of_bounds (2 * 2 ^ s) b (b * (2 * 2 ^ s) + k) (by omega) (by omega)
    rw [hval, if_pos (by rw [hd]; omega)]
    unfold stage_value
    rw [hm]
    have hk' : b * (2 * 2 ^ s) + k - b * (2 * 2 ^ s) = k := by omega
    rw [hk']
    have he : ∀ t, X (reverse_bits (2 * b) ((n + 1 : Nat) : Int) + t * 2 ^ (n + 1))
        = (fun t => X (reverse_bits b (n : Int) + t * 2 ^ n)) (2 * t) := by
      intro t
      show _ = X (reverse_bits b (n : Int) + 2 * t * 2 ^ n)
      rw [reverse_bits_double b n hn, hpown]
      congr 1
      ring
    have ho : ∀ t, X (reverse_bits (2 * b + 1) ((n + 1 : Nat) : Int) + t * 2 ^ (n + 1))
        = (fun t => X (reverse_bits b (n : Int) + t * 2 ^ n)) (2 * t + 1) := by
      intro t
      show _ = X (reverse_bits b (n : Int) + (2 * t + 1) * 2 ^ n)
      rw [reverse_bits_double_succ b n hn, hpown]
      congr 1
      ring
    have htw : ∀ j, twiddle (2 * 2 ^ s) 1 ^ j = twiddle (2 * 2 ^ s) j := by
      intro j
      rw [twiddle_pow, Nat.one_mul]
    by_cases hlow : k < 2 ^ s
    · rw [if_pos hlow]
      have e1 : b * (2 * 2 ^ s) + k = (2 * b) * 2 ^ s + k := by ring
      have e2 : b * (2 * 2 ^ s) + k + 2 ^ s = (2 * b + 1) * 2 ^ s + k := by ring
      rw [e2, e1]
      beta_reduce
      rw [hyv (2 * b) k (by omega) hlow, hyv (2 * b + 1) k (by omega) hlow, htw,
        dft_coeff_low _ (2 ^ s) k hh]
      congr 1
      · exact dft_coeff_congr _ _ _ _ (fun t _ => he t)
      · congr 1
        exact dft_coeff_congr _ _ _ _ (fun t _ => ho t)
    · rw [if_neg hlow]
      obtain ⟨k', rfl⟩ : ∃ k', k = k' + 2 ^ s := ⟨k - 2 ^ s, by omega⟩
      have hk2 : k' < 2 ^ s := by omega
      have e1 : b * (2 * 2 ^ s) + (k' + 2 ^ s) - 2 ^ s = (2 * b) * 2 ^ s + k' := by
        have : b * (2 * 2 ^ s) + (k' + 2 ^ s) = (2 * b) * 2 ^ s + k' + 2 ^ s := by ring
        omega
      have e2 : b * (2 * 2 ^ s) + (k' + 2 ^ s) = (2 * b + 1) * 2 ^ s + k' := by ring
      have e3 : k' + 2 ^ s - 2 ^ s = k' := by omega
      rw [e1, e2, e3]
      beta_reduce
      rw [hyv (2 * b) k' (by omega) hk2, hyv (2 * b + 1) k' (by omega) hk2, htw,
        dft_coeff_high _ (2 ^ s) k' hh]
      congr 1
      · exact dft_coeff_congr _ _ _ _ (fun t _ => he t)
      · congr 1
        exact dft_coeff_congr _ _ _ _ (fun t _ => ho t)

/-! ### All stages -/

/-- The outer loop entered with block length `2·2^s` and the invariant for `2^s` runs the
remaining `n` stages and ends with the invariant for the whole vector. -/
theorem stage_loop_ok (X : Nat → ℂ) (m : Nat) (hm : m ≤ 30) (n : Nat) :
    ∀ (s len : Nat) (hlen : 0 < len) (y : List ℂ), s + n = m → len = 2 * 2 ^ s →
      stage_invariant X s n y →
      ∃ y', stage_loop (2 ^ m) len hlen y = .ok y' ∧ stage_invariant X m 0 y' := by
  induction n with
  | zero =>
    intro s len hlen y hs hl hy
    have : s = m := by omega
    subst this
    refine ⟨y, ?_, hy⟩
    have hpos : 0 < 2 ^ s := Nat.pos_pow_of_pos s (by norm_num)
    rw [stage_loop, dif_neg (by omega)]
  | succ n ih =>
    intro s len hlen y hs hl hy
    subst hl
    have hpos : 0 < 2 ^ s := Nat.pos_pow_of_pos s (by norm_num)
    have hN' : 2 ^ m = 2 ^ n * (2 * 2 ^ s) := by
      rw [← hs, pow_add, pow_succ]; ring
    have h31 : 2 ^ m < 2 ^ 31 := Nat.pow_lt_pow_right (by norm_num) (by omega)
    have hylen : y.length = 2 ^ m := by rw [hy.1, hs]
    obtain ⟨y1, e1, l1, v1⟩ :=
      block_loop_ok (polar 1 (-2 * PI / ((2 * 2 ^ s : Nat) : ℝ))) (2 ^ s) (2 ^ n) (2 ^ m)
        hpos hN' h31 (2 ^ n) 0 y (by omega) hylen
    rw [Nat.zero_mul] at e1
    have hle : 2 * 2 ^ s ≤ 2 ^ m := by
      have : 0 < 2 ^ n := Nat.pos_pow_of_pos n (by norm_num)
      rw [hN']
      exact Nat.le_mul_of_pos_left _ this
    have hinv : stage_invariant X (s + 1) n y1 := by
      apply stage_invariant_step X s n (by omega) y y1 hy (by rw [l1, hylen])
      intro p
      rw [v1 p, polar_stage]
    obtain ⟨y', e2, hy'⟩ := ih (s + 1) (2 * (2 * 2 ^ s)) (by omega) y1 (by omega)
      (by rw [pow_succ]; ring) hinv
    refine ⟨y', ?_, hy'⟩
    rw [stage_loop, dif_pos hle]
    simp only [bind, Except.bind, e1]
    exact e2

theorem reverse_bits_zero_width (b : Nat) : reverse_bits b ((0 : Nat) : Int) = 0 := by
  simp [reverse_bits]

/-- On a vector of length `2^m < 2^31`, `optimized_fft` completes and leaves the
transform. -/
theorem optimized_fft_eq (m : Nat) (x : List ℂ) (hN : x.length = 2 ^ m)
    (h31 : x.length < 2 ^ 31) : optimized_fft x = .ok (dft_list x) := by
  have hm : m ≤ 30 := by
    by_contra hc
    have : (2:Nat) ^ 31 ≤ 2 ^ m := Nat.pow_le_pow_right (by norm_num) (by omega)
    omega
  rcases Nat.eq_zero_or_pos m with h0 | hpos
  · subst h0
    have h1 : x.length = 1 := by simpa using hN
    unfold optimized_fft
    simp only [h1, le_refl, if_true]
    rw [dft_list_single x h1]
  · have h2 : 2 ≤ x.length := by
      rw [hN]
      calc 2 = 2 ^ 1 := by norm_num
        _ ≤ 2 ^ m := Nat.pow_le_pow_right (by norm_num) hpos
    have hpw : is_power_of_two (to_int (x.length : Int)) = true := by
      rw [to_int_small _ h31]
      exact (is_power_of_two_nat x.length).mpr ⟨m, hN⟩
    obtain ⟨y0, hy0, hl0, hv0⟩ := bit_reversal_permutation_ok x m (by omega) hN
    have hinv0 : stage_invariant (fun t => x.getD t 0) 0 m y0 := by
      constructor
      · rw [hl0, hN, Nat.zero_add]
      · intro b k hb hk
        have hk0 : k = 0 := by simpa using hk
        subst hk0
        rw [pow_zero, dft_coeff_one]
        have hbN : b < x.length := by rw [hN]; exact hb
        have := hv0 b hbN
        simp only [Nat.mul_one, Nat.add_zero, Nat.zero_mul, List.getD_eq_getElem?_getD]
        rw [this]
    obtain ⟨y', hy', hlen', hval'⟩ :=
      stage_loop_ok (fun t => x.getD t 0) m hm m 0 2 (by omega) y0 (by omega) (by simp) hinv0
    unfold optimized_fft
    simp only []
    rw [if_neg (by omega), hpw]
    simp only [Bool.true_eq_false, if_false]
    rw [hN, num_bits_loop_ok m hm m 0 (by omega)]
    simp only [bind, Except.bind, hy0, hy']
    refine congrArg Except.ok ?_
    apply list_eq_of_getD
    · rw [hlen', dft_list_length, hN]; rfl
    · intro p hp
      have hp' : p < 2 ^ m := by rw [hlen'] at hp; exact hp
      have := hval' 0 p (by norm_num) hp'
      rw [Nat.zero_mul, Nat.zero_add] at this
      rw [this, dft_list_getD x p (by rw [hN]; exact hp'), hN]
      apply dft_coeff_congr
      intro t _
      show x.getD (reverse_bits 0 ((0 : Nat) : Int) + t * 2 ^ 0) 0 = x.getD t 0
      rw [reverse_bits_zero_width]
      simp

/-- C1: for every `m` with `N = 2^m < 2^31` and every input `x` of length `N`,
`naive_dft` and `optimized_fft` both complete, with vectors `X` and `Y` of length `N`, and
the vector `Y` that `optimized_fft` leaves in place of `x` equals `X = naive_dft(x)` element
by element. -/
theorem optimized_fft_agrees_with_naive_dft (m : Nat) (x : List ℂ) (hN : x.length = 2 ^ m)
    (h31 : 2 ^ m < 2 ^ 31) :
    ∃ X Y, naive_dft x = .ok X ∧ optimized_fft x = .ok Y ∧
      X.length = x.length ∧ Y.length = x.length ∧ (∀ k, k < x.length → Y[k]? = X[k]?) ∧
      Y = X :=
  ⟨dft_list x, dft_list x, naive_dft_eq x, optimized_fft_eq m x hN (by rw [hN]; exact h31),
    dft_list_length x, dft_list_length x, fun _ _ => rfl, rfl⟩

/-- Witness for C1: a vector of length four. -/
theorem optimized_fft_agrees_with_naive_dft_witness :
    ∃ X Y, naive_dft [1, I, 2, -1] = .ok X ∧ optimized_fft [1, I, 2, -1] = .ok Y ∧
      Y = X := by
  obtain ⟨X, Y, h1, h2, _, _, _, h3⟩ :=
    optimized_fft_agrees_with_naive_dft 2 [1, I, 2, -1] (by simp) (by norm_num)
  exact ⟨X, Y, h1, h2, h3⟩

/-! ## Further properties of the helpers -/

/-- C11: for every 32-bit signed `n`, `is_power_of_two(n)` is true if and only if `n > 0` and
`n` has exactly one set bit, that is `n = 2^k` for some `k` in `0..30` (bit `k` is the only
set bit).  It is false for `0` and for every negative `n`, `INT_MIN` included: the left operand
`n > 0` is false, so `n - 1` is not evaluated.  It is true for `1` and `1024` and false for
`0`, `-4` and `3`. -/
theorem is_power_of_two_spec (n : Int) (hlo : -2 ^ 31 ≤ n) (hhi : n < 2 ^ 31) :
    (is_power_of_two n = true ↔
      0 < n ∧ ∃ k, k ≤ 30 ∧ n = 2 ^ k ∧ ∀ j, n.toNat.testBit j = decide (k = j)) ∧
    (n ≤ 0 → is_power_of_two n = false ∧ decide (n > 0) = false) ∧
    is_power_of_two (-2 ^ 31) = false ∧
    is_power_of_two 1 = true ∧ is_power_of_two 1024 = true ∧
    is_power_of_two 0 = false ∧ is_power_of_two (-4) = false ∧ is_power_of_two 3 = false := by
  refine ⟨⟨?_, ?_⟩, ?_, by decide, by decide, by decide, by decide, by decide, by decide⟩
  · intro h
    have hpos : 0 < n := by
      by_contra hc
      rw [is_power_of_two_neg n (by omega)] at h
      cases h
    obtain ⟨N, rfl⟩ := Int.eq_ofNat_of_zero_le (le_of_lt hpos)
    obtain ⟨k, hk⟩ := (is_power_of_two_nat N).mp h
    subst hk
    refine ⟨hpos, k, ?_, by push_cast; rfl, ?_⟩
    · by_contra hc
      have h1 : (2 : Nat) ^ 31 ≤ 2 ^ k := Nat.pow_le_pow_right (by norm_num) (by omega)
      have h2 : ((2 ^ k : Nat) : Int) < 2 ^ 31 := hhi
      have h3 : (2 ^ k : Nat) < 2 ^ 31 := by exact_mod_cast h2
      omega
    · intro j
      rw [Int.toNat_ofNat, Nat.testBit_two_pow]
  · rintro ⟨_, k, _, hk, _⟩
    rw [hk]
    have : ((2 : Int) ^ k) = ((2 ^ k : Nat) : Int) := by push_cast; rfl
    rw [this]
    exact (is_power_of_two_nat (2 ^ k)).mpr ⟨k, rfl⟩
  · intro h
    exact ⟨is_power_of_two_neg n h, by simp; omega⟩

/-- Witness for C11: `n = 1024`. -/
theorem is_power_of_two_spec_witness :
    (is_power_of_two 1024 = true ↔
      (0 : Int) < 1024 ∧
        ∃ k, k ≤ 30 ∧ (1024 : Int) = 2 ^ k ∧
          ∀ j, (1024 : Int).toNat.testBit j = decide (k = j)) :=
  (is_power_of_two_spec 1024 (by norm_num) (by norm_num)).1

theorem dft_list_nil : dft_list [] = [] := by
  simp [dft_list]

theorem dft_list_short (x : List ℂ) (h : x.length ≤ 1) : dft_list x = x := by
  rcases Nat.eq_zero_or_pos x.length with h0 | hpos
  · have : x = [] := List.length_eq_zero.mp h0
    subst this
    exact dft_list_nil
  · exact dft_list_single x (by omega)

/-- C12: for every input of length `N ≤ 1`, each of the three transforms completes and
returns the input unchanged; `naive_dft([]) = []`, `naive_dft([a]) = [a]`, and
`optimized_fft` also returns the empty vector, whose length is not a power of two. -/
theorem transforms_degenerate (x : List ℂ) (h : x.length ≤ 1) :
    naive_dft x = .ok x ∧ recursive_fft x = .ok x ∧ optimized_fft x = .ok x ∧
    naive_dft [] = .ok [] ∧ (∀ a : ℂ, naive_dft [a] = .ok [a]) ∧
    optimized_fft [] = .ok [] := by
  refine ⟨?_, recursive_fft_base x h, ?_, ?_, ?_, ?_⟩
  · rw [naive_dft_eq, dft_list_short x h]
  · unfold optimized_fft
    simp [h]
  · rw [naive_dft_eq, dft_list_nil]
  · intro a
    rw [naive_dft_eq, dft_list_single [a] rfl]
  · unfold optimized_fft
    simp

/-- Witness for C12: a vector of length one. -/
theorem transforms_degenerate_witness :
    naive_dft [I] = .ok [I] ∧ recursive_fft [I] = .ok [I] ∧ optimized_fft [I] = .ok [I] := by
  obtain ⟨h1, h2, h3, _⟩ := transforms_degenerate [I] (by simp)
  exact ⟨h1, h2, h3⟩

/-- The loop that computes `num_bits`, entered at `b` with `2^c < N` for all `c < b`. -/
theorem num_bits_loop_min (N : Nat) (hN : N ≤ 2 ^ 30) (k : Nat) :
    ∀ b, b + k = 30 → (∀ c, c < b → 2 ^ c < N) →
      ∃ r, num_bits_loop N b = .ok r ∧ N ≤ 2 ^ r ∧ ∀ c, c < r → 2 ^ c < N := by
  induction k with
  | zero =>
    intro b hb hmin
    have : b = 30 := by omega
    subst this
    refine ⟨30, ?_, hN, hmin⟩
    rw [num_bits_loop, dif_pos (by norm_num), Nat.one_shiftLeft, index_conv _ (by norm_num),
      if_neg (by omega)]
  | succ k ih =>
    intro b hb hmin
    have h2 : (2 : Nat) ^ b < 2 ^ 31 := Nat.pow_lt_pow_right (by norm_num) (by omega)
    rw [num_bits_loop, dif_pos (by omega), Nat.one_shiftLeft, index_conv _ h2]
    by_cases hlt : 2 ^ b < N
    · rw [if_pos hlt]
      apply ih (b + 1) (by omega)
      intro c hc
      by_cases hcb : c = b
      · rw [hcb]; exact hlt
      · exact hmin c (by omega)
    · rw [if_neg hlt]
      exact ⟨b, rfl, by omega, hmin⟩

/-- C16: for every `N` with `2 ≤ N ≤ 2^30` the loop
`while ((1 << num_bits) < N) num_bits++` ends, with the smallest `b` such that `2^b ≥ N`;
for `N = 2^m` this is `m`. -/
theorem num_bits_loop_spec (N : Nat) (_h2 : 2 ≤ N) (h30 : N ≤ 2 ^ 30) :
    ∃ b, num_bits_loop N 0 = .ok b ∧ N ≤ 2 ^ b ∧ (∀ c, N ≤ 2 ^ c → b ≤ c) ∧
      (∀ m, N = 2 ^ m → b = m) := by
  obtain ⟨r, h1, h2, h3⟩ := num_bits_loop_min N h30 30 0 (by omega)
    (fun c hc => absurd hc (Nat.not_lt_zero c))
  have hmin : ∀ c, N ≤ 2 ^ c → r ≤ c := by
    intro c hc
    by_contra hlt
    have := h3 c (by omega)
    omega
  refine ⟨r, h1, h2, hmin, ?_⟩
  intro m hm
  have h4 : r ≤ m := hmin m (by omega)
  by_contra hne
  have h5 : 2 ^ r < 2 ^ m := Nat.pow_lt_pow_right (by norm_num) (by omega)
  omega

/-- Witness for C16: `N = 5`. -/
theorem num_bits_loop_spec_witness :
    ∃ b, num_bits_loop 5 0 = .ok b ∧ 5 ≤ 2 ^ b ∧ (∀ c, 5 ≤ 2 ^ c → b ≤ c) ∧
      (∀ m, 5 = 2 ^ m → b = m) :=
  num_bits_loop_spec 5 (by norm_num) (by norm_num)

theorem twiddle_eq_exp_one (N k : Nat) :
    twiddle N k = Complex.exp (-(I * 2 * (Real.pi : ℂ) * (k : ℂ) / (N : ℂ))) := by
  rw [twiddle]
  congr 1
  push_cast
  ring

theorem getD_of_getElem?_eq (a b : List ℂ) (i j : Nat) (h : a[i]? = b[j]?) :
    a.getD i 0 = b.getD j 0 := by
  rw [List.getD_eq_getElem?_getD, List.getD_eq_getElem?_getD, h]

/-- C19: for every `x` of even length `N ≥ 2`, with `e[i] = x[2i]` and `o[i] = x[2i+1]` for
`i < N/2` and `t_k = exp(-i·2π·k/N) · naive_dft(o)[k]`, for every `k < N/2`:
`naive_dft(x)[k] = naive_dft(e)[k] + t_k` and `naive_dft(x)[k + N/2] = naive_dft(e)[k] - t_k`.
This is the identity behind the combine step of `recursive_fft`. -/
theorem naive_dft_even_odd (x e o : List ℂ) (h2 : 2 ≤ x.length) (hev : x.length % 2 = 0)
    (he : e.length = x.length / 2) (ho : o.length = x.length / 2)
    (hsplit : ∀ i, i < x.length / 2 → e[i]? = x[2 * i]? ∧ o[i]? = x[2 * i + 1]?) :
    ∃ X E O, naive_dft x = .ok X ∧ naive_dft e = .ok E ∧ naive_dft o = .ok O ∧
      X.length = x.length ∧ E.length = x.length / 2 ∧ O.length = x.length / 2 ∧
      ∀ k, k < x.length / 2 →
        X.getD k 0 = E.getD k 0
          + Complex.exp (-(I * 2 * (Real.pi : ℂ) * (k : ℂ) / (x.length : ℂ))) * O.getD k 0 ∧
        X.getD (k + x.length / 2) 0 = E.getD k 0
          - Complex.exp (-(I * 2 * (Real.pi : ℂ) * (k : ℂ) / (x.length : ℂ))) * O.getD k 0 := by
  refine ⟨dft_list x, dft_list e, dft_list o, naive_dft_eq x, naive_dft_eq e, naive_dft_eq o,
    dft_list_length x, by rw [dft_list_length, he], by rw [dft_list_length, ho], ?_⟩
  intro k hk
  have hx : x.length = 2 * (x.length / 2) := by omega
  have hh : 0 < x.length / 2 := by omega
  have hE : (dft_list e).getD k 0
      = dft_coeff (fun t => x.getD (2 * t) 0) (x.length / 2) k := by
    rw [dft_list_getD e k (by omega), he]
    exact dft_coeff_congr _ _ _ _ (fun t ht => getD_of_getElem?_eq _ _ _ _ (hsplit t ht).1)
  have hO : (dft_list o).getD k 0
      = dft_coeff (fun t => x.getD (2 * t + 1) 0) (x.length / 2) k := by
    rw [dft_list_getD o k (by omega), ho]
    exact dft_coeff_congr _ _ _ _ (fun t ht => getD_of_getElem?_eq _ _ _ _ (hsplit t ht).2)
  rw [dft_list_getD x k (by omega), dft_list_getD x (k + x.length / 2) (by omega), hE, hO,
    ← twiddle_eq_exp_one]
  constructor
  · have := dft_coeff_low (fun t => x.getD t 0) (x.length / 2) k hh
    rw [← hx] at this
    exact this
  · have := dft_coeff_high (fun t => x.getD t 0) (x.length / 2) k hh
    rw [← hx] at this
    exact this

/-- Witness for C19: a vector of length four. -/
theorem naive_dft_even_odd_witness :
    ∃ X E O, naive_dft [1, I, 2, -1] = .ok X ∧ naive_dft [1, 2] = .ok E ∧
      naive_dft [I, -1] = .ok O ∧
      ∀ k, k < [1, I, 2, -1].length / 2 →
        X.getD k 0 = E.getD k 0
          + Complex.exp (-(I * 2 * (Real.pi : ℂ) * (k : ℂ)
              / (([1, I, 2, -1] : List ℂ).length : ℂ))) * O.getD k 0 ∧
        X.getD (k + [1, I, 2, -1].length / 2) 0 = E.getD k 0
          - Complex.exp (-(I * 2 * (Real.pi : ℂ) * (k : ℂ)
              / (([1, I, 2, -1] : List ℂ).length : ℂ))) * O.getD k 0 := by
  obtain ⟨X, E, O, h1, h2, h3, _, _, _, h4⟩ :=
    naive_dft_even_odd [1, I, 2, -1] [1, 2] [I, -1] (by simp) (by simp) (by simp) (by simp)
      (by
        intro i hi
        have hi' : i < 2 := by simpa using hi
        interval_cases i <;> simp)
  exact ⟨X, E, O, h1, h2, h3, h4⟩

/-! ## Lengths -/

/-- A property carried by every completed pass of a loop body is carried by the loop. -/
theorem foldlM_preserves {σ : Type} (body : σ → Nat → Except Fault σ) (P : σ → Prop)
    (hstep : ∀ s i s', P s → body s i = .ok s' → P s') :
    ∀ (l : List Nat) (s s' : σ), P s → l.foldlM body s = .ok s' → P s' := by
  intro l
  induction l with
  | nil =>
    intro s s' hs h
    simp only [List.foldlM_nil, pure, Except.pure, Except.ok.injEq] at h
    rw [← h]; exact hs
  | cons a l ih =>
    intro s s' hs h
    rw [List.foldlM_cons] at h
    cases hb : body s a with
    | error e => rw [hb] at h; cases h
    | ok t =>
      rw [hb] at h
      exact ih t s' (hstep s a t hs hb) h

theorem vec_write_length {α : Type} (v w : List α) (i : Nat) (a : α)
    (h : vec_write v i a = .ok w) : w.length = v.length := by
  unfold vec_write at h
  by_cases hi : i < v.length
  · rw [if_pos hi] at h
    cases h
    exact List.length_set _ _ _
  · rw [if_neg hi] at h
    cases h

theorem bind_ok {α β : Type} (m : Except Fault α) (f : α → Except Fault β) (b : β)
    (h : (m >>= f) = .ok b) : ∃ a, m = .ok a ∧ f a = .ok b := by
  cases m with
  | error e => cases h
  | ok a => exact ⟨a, rfl, h⟩

theorem vec_swap_length {α : Type} (v w : List α) (i j : Nat)
    (h : vec_swap v i j = .ok w) : w.length = v.length := by
  unfold vec_swap at h
  obtain ⟨a, _, h⟩ := bind_ok _ _ _ h
  obtain ⟨b, _, h⟩ := bind_ok _ _ _ h
  obtain ⟨u, h3, h⟩ := bind_ok _ _ _ h
  rw [vec_write_length u w j a h, vec_write_length v u i b h3]

theorem bit_reversal_permutation_length {α : Type} (x y : List α) (num_bits : Int)
    (h : bit_reversal_permutation x num_bits = .ok y) : y.length = x.length := by
  unfold bit_reversal_permutation at h
  refine foldlM_preserves _ (fun (s : List α) => s.length = x.length) ?_ _ x y rfl h
  intro s i s' hs hb
  simp only [] at hb
  by_cases hlt : i < reverse_bits (to_unsigned (i : Int)) num_bits
  · rw [if_pos hlt] at hb
    rw [vec_swap_length s s' _ _ hb, hs]
  · rw [if_neg hlt] at hb
    cases hb
    exact hs

theorem butterfly_length (w_len : ℂ) (h i j : Nat) (s s' : List ℂ × ℂ)
    (hb : butterfly w_len h i s j = .ok s') : s'.1.length = s.1.length := by
  unfold butterfly at hb
  simp only [] at hb
  obtain ⟨u, _, hb⟩ := bind_ok _ _ _ hb
  obtain ⟨v, _, hb⟩ := bind_ok _ _ _ hb
  obtain ⟨y, h3, hb⟩ := bind_ok _ _ _ hb
  obtain ⟨z, h4, hb⟩ := bind_ok _ _ _ hb
  cases hb
  show z.length = s.1.length
  rw [vec_write_length y z _ _ h4, vec_write_length s.1 y _ _ h3]

theorem butterfly_loop_length (w_len : ℂ) (h i : Nat) (x y : List ℂ)
    (hb : butterfly_loop w_len h i x = .ok y) : y.length = x.length := by
  unfold butterfly_loop at hb
  obtain ⟨s, hf, hb⟩ := bind_ok _ _ _ hb
  cases hb
  exact foldlM_preserves (butterfly w_len h i)
    (fun (s : List ℂ × ℂ) => s.1.length = x.length)
    (fun s j s' hs hstep => by
      show s'.1.length = x.length
      rw [butterfly_length w_len h i j s s' hstep]; exact hs)
    _ (x, 1) s rfl hf

theorem block_loop_length (w_len : ℂ) (len : Nat) (hlen : 0 < len) (N : Nat) (k : Nat) :
    ∀ (i : Nat) (x y : List ℂ), N - i ≤ k →
      block_loop w_len len hlen N i x = .ok y → y.length = x.length := by
  induction k with
  | zero =>
    intro i x y hk h
    rw [block_loop, dif_neg (by omega)] at h
    cases h
    rfl
  | succ k ih =>
    intro i x y hk h
    rw [block_loop] at h
    by_cases hi : i < N
    · rw [dif_pos hi] at h
      obtain ⟨x1, h1, h⟩ := bind_ok _ _ _ h
      rw [ih (i + len) x1 y (by omega) h, butterfly_loop_length _ _ _ _ _ h1]
    · rw [dif_neg hi] at h
      cases h
      rfl

theorem stage_loop_length (N : Nat) (k : Nat) :
    ∀ (len : Nat) (hlen : 0 < len) (x y : List ℂ), N + 1 - len ≤ k →
      stage_loop N len hlen x = .ok y → y.length = x.length := by
  induction k with
  | zero =>
    intro len hlen x y hk h
    rw [stage_loop, dif_neg (by omega)] at h
    cases h
    rfl
  | succ k ih =>
    intro len hlen x y hk h
    rw [stage_loop] at h
    by_cases hl : len ≤ N
    · rw [dif_pos hl] at h
      simp only [] at h
      obtain ⟨x1, h1, h⟩ := bind_ok _ _ _ h
      rw [ih (2 * len) (by omega) x1 y (by omega) h,
        block_loop_length _ _ _ N N 0 x x1 (by omega) h1]
    · rw [dif_neg hl] at h
      cases h
      rfl

/-- Whenever `optimized_fft` returns, the vector has the length it had. -/
theorem optimized_fft_length (x y : List ℂ) (h : optimized_fft x = .ok y) :
    y.length = x.length := by
  unfold optimized_fft at h
  simp only [] at h
  by_cases h1 : x.length ≤ 1
  · rw [if_pos h1] at h
    cases h
    rfl
  · rw [if_neg h1] at h
    by_cases hp : is_power_of_two (to_int (x.length : Int)) = false
    · rw [if_pos hp] at h
      cases h
    · rw [if_neg hp] at h
      obtain ⟨nb, _, h⟩ := bind_ok _ _ _ h
      obtain ⟨x1, hperm, h⟩ := bind_ok _ _ _ h
      rw [stage_loop_length x.length (x.length + 1) 2 (by omega) x1 y (by omega) h,
        bit_reversal_permutation_length x x1 _ hperm]

/-- C13: every transform produces an output of the length of its input.  `naive_dft`
completes with a vector of length `|x|` for every `x`.  `recursive_fft` completes with a
vector of length `|x|` when `|x| ≤ 1` or `|x|` is a power of two, and never returns a vector
of another length.  `optimized_fft` never changes the length of its argument, and it
completes when `|x| ≤ 1` or `|x| = 2^m < 2^31`. -/
theorem transforms_preserve_length (x : List ℂ) :
    (∃ X, naive_dft x = .ok X ∧ X.length = x.length) ∧
    ((x.length ≤ 1 ∨ ∃ k, x.length = 2 ^ k) →
      ∃ Y, recursive_fft x = .ok Y ∧ Y.length = x.length) ∧
    (∀ Y, recursive_fft x = .ok Y → Y.length = x.length) ∧
    (∀ Y, optimized_fft x = .ok Y → Y.length = x.length) ∧
    ((x.length ≤ 1 ∨ ∃ m, x.length = 2 ^ m ∧ 2 ^ m < 2 ^ 31) →
      ∃ Y, optimized_fft x = .ok Y ∧ Y.length = x.length) := by
  have hrec : (x.length ≤ 1 ∨ ∃ k, x.length = 2 ^ k) →
      ∃ Y, recursive_fft x = .ok Y ∧ Y.length = x.length := by
    rintro (h | ⟨k, hk⟩)
    · exact ⟨x, recursive_fft_base x h, rfl⟩
    · exact ⟨dft_list x, recursive_fft_eq k x hk, dft_list_length x⟩
  refine ⟨⟨dft_list x, naive_dft_eq x, dft_list_length x⟩, hrec, ?_, optimized_fft_length x, ?_⟩
  · intro Y hY
    by_cases hp : x.length = 0 ∨ ∃ k, x.length = 2 ^ k
    · have hp' : x.length ≤ 1 ∨ ∃ k, x.length = 2 ^ k := by
        rcases hp with h0 | hk
        · exact Or.inl (by omega)
        · exact Or.inr hk
      obtain ⟨Y', h1, h2⟩ := hrec hp'
      rw [h1] at hY
      cases hY
      exact h2
    · rw [(recursive_fft_fault x hp).1] at hY
      cases hY
  · rintro (h | ⟨m, hm, h31⟩)
    · refine ⟨x, ?_, rfl⟩
      unfold optimized_fft
      simp [h]
    · exact ⟨dft_list x, optimized_fft_eq m x hm (by rw [hm]; exact h31), dft_list_length x⟩

/-! ## Twiddles and positions of the butterflies -/

theorem abs_twiddle (n a : Nat) : Complex.abs (twiddle n a) = 1 := by
  rw [twiddle]
  exact Complex.abs_exp_ofReal_mul_I _

/-- A block of a stage lies inside the vector: for `len = 2·2^s ≤ 2^m` and a block start
`i = b·len < 2^m`, also `i + len ≤ 2^m`. -/
theorem block_inside (m s b : Nat) (hle : 2 * 2 ^ s ≤ 2 ^ m) (hi : b * (2 * 2 ^ s) < 2 ^ m) :
    b * (2 * 2 ^ s) + 2 * 2 ^ s ≤ 2 ^ m := by
  have hs : s + 1 ≤ m := by
    have : 2 ^ (s + 1) ≤ 2 ^ m := by rw [pow_succ]; omega
    exact (Nat.pow_le_pow_iff_right (by norm_num)).mp this
  have hN : 2 ^ m = 2 ^ (m - (s + 1)) * (2 * 2 ^ s) := by
    have : 2 * 2 ^ s = 2 ^ (s + 1) := by rw [pow_succ]; ring
    rw [this, ← pow_add]
    congr 1
    omega
  have hpos : 0 < 2 * 2 ^ s := by positivity
  have hb : b < 2 ^ (m - (s + 1)) := by
    rw [hN] at hi
    exact Nat.lt_of_mul_lt_mul_right hi
  calc b * (2 * 2 ^ s) + 2 * 2 ^ s = (b + 1) * (2 * 2 ^ s) := by ring
    _ ≤ 2 ^ (m - (s + 1)) * (2 * 2 ^ s) := Nat.mul_le_mul_right _ hb
    _ = 2 ^ m := hN.symm

/-- C17: in the stage of `optimized_fft` with block length `len = 2·2^s ≤ N` and in the
block starting at `i = b·len < N`, the passes before offset `j < len/2` complete and the
running twiddle `w` with which the butterfly at offset `j` is run equals
`w_len^j = exp(-i·2π·j/len)`, where `w_len = polar(1, -2·PI/len)`; it starts from `w = 1` at
`j = 0` and has magnitude `1`. -/
theorem running_twiddle (m s b j : Nat) (x : List ℂ) (hx : x.length = 2 ^ m)
    (h31 : 2 ^ m < 2 ^ 31) (hle : 2 * 2 ^ s ≤ 2 ^ m) (hi : b * (2 * 2 ^ s) < 2 ^ m)
    (hj : j < 2 * 2 ^ s / 2) :
    ∃ st, (List.range j).foldlM
        (butterfly (polar 1 (-2 * PI / ((2 * 2 ^ s : Nat) : ℝ))) (2 * 2 ^ s / 2)
          (b * (2 * 2 ^ s))) (x, 1) = .ok st ∧
      st.2 = (polar 1 (-2 * PI / ((2 * 2 ^ s : Nat) : ℝ))) ^ j ∧
      st.2 = Complex.exp (-(I * 2 * (Real.pi : ℂ) * (j : ℂ) / ((2 * 2 ^ s : Nat) : ℂ))) ∧
      Complex.abs st.2 = 1 ∧
      (j = 0 → st.2 = 1) := by
  have hhalf : 2 * 2 ^ s / 2 = 2 ^ s := by omega
  rw [hhalf] at hj ⊢
  have hpos : 0 < 2 ^ s := Nat.pos_pow_of_pos s (by norm_num)
  obtain ⟨st, h1, h2, _, _⟩ := butterfly_loop_inv
    (polar 1 (-2 * PI / ((2 * 2 ^ s : Nat) : ℝ))) (2 ^ s) (b * (2 * 2 ^ s)) x hpos
    (by rw [hx]; exact block_inside m s b hle hi) (by rw [hx]; exact h31) j (by omega)
  have h3 : st.2 = twiddle (2 * 2 ^ s) j := by
    rw [h2, polar_stage, twiddle_pow, Nat.one_mul]
  refine ⟨st, h1, h2, ?_, ?_, ?_⟩
  · rw [h3, twiddle_eq_exp_one]
  · rw [h3, abs_twiddle]
  · intro h0
    rw [h2, h0, pow_zero]

/-- Witness for C17: `N = 8`, the stage with `len = 4`, the block at `4`, offset `1`. -/
theorem running_twiddle_witness :
    ∃ st, (List.range 1).foldlM
        (butterfly (polar 1 (-2 * PI / ((2 * 2 ^ 1 : Nat) : ℝ))) (2 * 2 ^ 1 / 2)
          (1 * (2 * 2 ^ 1))) ([1, 2, 3, 4, 5, 6, 7, 8], 1) = .ok st ∧
      st.2 = (polar 1 (-2 * PI / ((2 * 2 ^ 1 : Nat) : ℝ))) ^ 1 ∧
      Complex.abs st.2 = 1 := by
  obtain ⟨st, h1, h2, _, h3, _⟩ :=
    running_twiddle 3 1 1 1 [1, 2, 3, 4, 5, 6, 7, 8] (by simp) (by norm_num) (by norm_num)
      (by norm_num) (by norm_num)
  exact ⟨st, h1, h2, h3⟩

/-- C15: for an input of length `N = 2^m` with `2 ≤ N < 2^31`, every element access of
`optimized_fft` is in range, so the call completes.  `num_bits` is `m`, and
`reverse_bits(i, num_bits) < N` for every `i < N`.  In the stage with `len = 2·2^s ≤ N`, the
block starting at `i = b·len < N` and the offset `j < half_len = len/2`:
`0 ≤ idx1 < idx2 = idx1 + half_len < N` with `half_len > 0`, so `idx1 ≠ idx2`, both lie in
`[i, i + len)`, and the butterfly runs without a fault on every vector of length `N`. -/
theorem optimized_fft_accesses_in_range (m : Nat) (x : List ℂ) (hx : x.length = 2 ^ m)
    (h2 : 2 ≤ 2 ^ m) (h31 : 2 ^ m < 2 ^ 31) :
    (∃ y, optimized_fft x = .ok y) ∧
    num_bits_loop x.length 0 = .ok m ∧
    (∀ i, i < x.length → reverse_bits (to_unsigned (i : Int)) (m : Int) < x.length) ∧
    (∀ s b j, 2 * 2 ^ s ≤ x.length → b * (2 * 2 ^ s) < x.length → j < 2 * 2 ^ s / 2 →
      0 < 2 * 2 ^ s / 2 ∧
      0 ≤ to_int ((b * (2 * 2 ^ s) + j : Nat) : Int) ∧
      to_int ((b * (2 * 2 ^ s) + j : Nat) : Int)
        < to_int ((b * (2 * 2 ^ s) + j + 2 * 2 ^ s / 2 : Nat) : Int) ∧
      to_int ((b * (2 * 2 ^ s) + j + 2 * 2 ^ s / 2 : Nat) : Int)
        = to_int ((b * (2 * 2 ^ s) + j : Nat) : Int) + ((2 * 2 ^ s / 2 : Nat) : Int) ∧
      to_int ((b * (2 * 2 ^ s) + j + 2 * 2 ^ s / 2 : Nat) : Int) < (x.length : Int) ∧
      to_int ((b * (2 * 2 ^ s) + j : Nat) : Int)
        ≠ to_int ((b * (2 * 2 ^ s) + j + 2 * 2 ^ s / 2 : Nat) : Int) ∧
      ((b * (2 * 2 ^ s) : Nat) : Int) ≤ to_int ((b * (2 * 2 ^ s) + j : Nat) : Int) ∧
      to_int ((b * (2 * 2 ^ s) + j + 2 * 2 ^ s / 2 : Nat) : Int)
        < ((b * (2 * 2 ^ s) + 2 * 2 ^ s : Nat) : Int) ∧
      ∀ (w_len : ℂ) (st : List ℂ × ℂ), st.1.length = x.length →
        ∃ st', butterfly w_len (2 * 2 ^ s / 2) (b * (2 * 2 ^ s)) st j = .ok st') := by
  have hm : m ≤ 30 := by
    by_contra hc
    have : (2 : Nat) ^ 31 ≤ 2 ^ m := Nat.pow_le_pow_right (by norm_num) (by omega)
    omega
  refine ⟨⟨dft_list x, optimized_fft_eq m x hx (by rw [hx]; exact h31)⟩, ?_, ?_, ?_⟩
  · rw [hx]
    exact num_bits_loop_ok m hm m 0 (by omega)
  · intro i hi
    rw [to_unsigned_small i (by omega), hx]
    exact reverse_bits_lt i m (by omega)
  · intro s b j hle hi hj
    rw [hx] at hle hi
    have hin := block_inside m s b hle hi
    have hhalf : 2 * 2 ^ s / 2 = 2 ^ s := by omega
    rw [hhalf] at hj ⊢
    have hpos : 0 < 2 ^ s := Nat.pos_pow_of_pos s (by norm_num)
    have e1 : to_int ((b * (2 * 2 ^ s) + j : Nat) : Int) = ((b * (2 * 2 ^ s) + j : Nat) : Int) :=
      to_int_small _ (by omega)
    have e2 : to_int ((b * (2 * 2 ^ s) + j + 2 ^ s : Nat) : Int)
        = ((b * (2 * 2 ^ s) + j + 2 ^ s : Nat) : Int) := to_int_small _ (by omega)
    rw [e1, e2]
    refine ⟨hpos, by omega, by omega, by omega, by omega, by omega, by omega, by omega, ?_⟩
    intro w_len st hst
    exact ⟨_, butterfly_ok w_len (2 ^ s) (b * (2 * 2 ^ s)) j st (by omega) (by omega) hpos⟩

/-- Witness for C15: a vector of length four. -/
theorem optimized_fft_accesses_in_range_witness :
    (∃ y, optimized_fft [1, I, 2, -1] = .ok y) ∧
    num_bits_loop ([1, I, 2, -1] : List ℂ).length 0 = .ok 2 := by
  obtain ⟨h1, h2, _⟩ :=
    optimized_fft_accesses_in_range 2 [1, I, 2, -1] (by simp) (by norm_num) (by norm_num)
  exact ⟨h1, h2⟩

/-! ## The state between the stages -/

theorem stage_loop_congr (N len len' : Nat) (hlen : 0 < len) (hlen' : 0 < len')
    (h : len = len') (x : List ℂ) : stage_loop N len hlen x = stage_loop N len' hlen' x := by
  subst h
  rfl

/-- The outer loop entered at `len = 2` is its first `s` passes followed by the loop entered
at `len = 2·2^s`, as long as `2^s ≤ N`. -/
theorem stage_loop_split (N : Nat) (x : List ℂ) (s : Nat) (hs : 2 ^ s ≤ N) :
    stage_loop N 2 (by norm_num) x
      = (run_stages N s x >>= fun y => stage_loop N (2 * 2 ^ s) (by positivity) y) := by
  induction s with
  | zero =>
    show _ = stage_loop N (2 * 2 ^ 0) _ x
    exact stage_loop_congr N 2 (2 * 2 ^ 0) _ _ (by norm_num) x
  | succ s ih =>
    have hs' : 2 ^ s ≤ N := by
      have : 2 ^ s ≤ 2 ^ (s + 1) := Nat.pow_le_pow_right (by norm_num) (by omega)
      omega
    have hle : 2 * 2 ^ s ≤ N := by rw [pow_succ] at hs; omega
    rw [ih hs']
    show _ = ((run_stages N s x >>= fun y =>
      block_loop (polar 1 (-2 * PI / ((2 * 2 ^ s : Nat) : ℝ))) (2 * 2 ^ s) _ N 0 y) >>=
        fun y => stage_loop N (2 * 2 ^ (s + 1)) _ y)
    cases run_stages N s x with
    | error e => rfl
    | ok y =>
      show stage_loop N (2 * 2 ^ s) _ y =
        (block_loop (polar 1 (-2 * PI / ((2 * 2 ^ s : Nat) : ℝ))) (2 * 2 ^ s) _ N 0 y >>=
          fun y => stage_loop N (2 * 2 ^ (s + 1)) _ y)
      rw [stage_loop, dif_pos hle]
      show (block_loop (polar 1 (-2 * PI / ((2 * 2 ^ s : Nat) : ℝ))) (2 * 2 ^ s) _ N 0 y >>=
        fun z => stage_loop N (2 * (2 * 2 ^ s)) _ z) = _
      cases block_loop (polar 1 (-2 * PI / ((2 * 2 ^ s : Nat) : ℝ))) (2 * 2 ^ s)
          (by positivity) N 0 y with
      | error e => rfl
      | ok z =>
        show stage_loop N (2 * (2 * 2 ^ s)) _ z = stage_loop N (2 * 2 ^ (s + 1)) _ z
        exact stage_loop_congr N _ _ _ _ (by rw [pow_succ]; ring) z

/-- The first `s` stages carry the invariant from block length `1` to block length `2^s`. -/
theorem run_stages_ok (X : Nat → ℂ) (m : Nat) (hm : m ≤ 30) (y0 : List ℂ)
    (h0 : stage_invariant X 0 m y0) (s : Nat) (hs : s ≤ m) :
    ∃ y, run_stages (2 ^ m) s y0 = .ok y ∧ stage_invariant X s (m - s) y := by
  induction s with
  | zero => exact ⟨y0, rfl, h0⟩
  | succ s ih =>
    obtain ⟨y, hy, hinv⟩ := ih (by omega)
    obtain ⟨n, hn⟩ : ∃ n, m - s = n + 1 := ⟨m - s - 1, by omega⟩
    have hn' : m - (s + 1) = n := by omega
    rw [hn] at hinv
    have hpos : 0 < 2 ^ s := Nat.pos_pow_of_pos s (by norm_num)
    have hN : 2 ^ m = 2 ^ n * (2 * 2 ^ s) := by
      have : m = n + (s + 1) := by omega
      rw [this, pow_add, pow_succ]; ring
    have h31 : 2 ^ m < 2 ^ 31 := Nat.pow_lt_pow_right (by norm_num) (by omega)
    have hylen : y.length = 2 ^ m := by
      rw [hinv.1]; congr 1; omega
    obtain ⟨y1, e1, l1, v1⟩ :=
      block_loop_ok (polar 1 (-2 * PI / ((2 * 2 ^ s : Nat) : ℝ))) (2 ^ s) (2 ^ n) (2 ^ m)
        hpos hN h31 (2 ^ n) 0 y (by omega) hylen
    rw [Nat.zero_mul] at e1
    refine ⟨y1, ?_, ?_⟩
    · show (run_stages (2 ^ m) s y0 >>= fun y =>
        block_loop (polar 1 (-2 * PI / ((2 * 2 ^ s : Nat) : ℝ))) (2 * 2 ^ s) _ (2 ^ m) 0 y)
          = .ok y1
      rw [hy]
      exact e1
    · rw [hn']
      apply stage_invariant_step X s n (by omega) y y1 hinv (by rw [l1, hylen])
      intro p
      rw [v1 p, polar_stage]

theorem stage_invariant_final (x y : List ℂ) (m : Nat) (hx : x.length = 2 ^ m)
    (hy : stage_invariant (fun t => x.getD t 0) m 0 y) : y = dft_list x := by
  obtain ⟨hlen, hval⟩ := hy
  apply list_eq_of_getD
  · rw [hlen, dft_list_length, hx]; rfl
  · intro p hp
    have hp' : p < 2 ^ m := by rw [hlen] at hp; exact hp
    have := hval 0 p (by norm_num) hp'
    rw [Nat.zero_mul, Nat.zero_add] at this
    rw [this, dft_list_getD x p (by rw [hx]; exact hp'), hx]
    apply dft_coeff_congr
    intro t _
    show x.getD (reverse_bits 0 ((0 : Nat) : Int) + t * 2 ^ 0) 0 = x.getD t 0
    rw [reverse_bits_zero_width]
    simp

theorem block_eq (y Z : List ℂ) (a n : Nat) (ha : a + n ≤ y.length) (hZ : Z.length = n)
    (h : ∀ k, k < n → y.getD (a + k) 0 = Z.getD k 0) : (y.drop a).take n = Z := by
  apply list_eq_of_getD
  · rw [List.length_take, List.length_drop, hZ]
    omega
  · intro p hp
    rw [List.length_take, List.length_drop] at hp
    have hpn : p < n := by omega
    rw [← h p hpn, List.getD_eq_getElem?_getD, List.getD_eq_getElem?_getD,
      List.getElem?_take_of_lt hpn, List.getElem?_drop]

/-- The state after the permutation satisfies the invariant for block length `1`. -/
theorem stage_invariant_init (x y0 : List ℂ) (m : Nat) (hx : x.length = 2 ^ m)
    (hl0 : y0.length = x.length)
    (hv0 : ∀ p, p < x.length → y0[p]? = x[reverse_bits p (m : Int)]?) :
    stage_invariant (fun t => x.getD t 0) 0 m y0 := by
  constructor
  · rw [hl0, hx, Nat.zero_add]
  · intro b k hb hk
    have hk0 : k = 0 := by simpa using hk
    subst hk0
    rw [pow_zero, dft_coeff_one]
    have hbN : b < x.length := by rw [hx]; exact hb
    have := hv0 b hbN
    simp only [Nat.mul_one, Nat.add_zero, Nat.zero_mul, List.getD_eq_getElem?_getD]
    rw [this]

theorem getD_map_range (f : Nat → ℂ) (n t : Nat) (ht : t < n) :
    ((List.range n).map f).getD t 0 = f t := by
  rw [List.getD_eq_getElem?_getD, List.getElem?_map, List.getElem?_range ht]
  rfl

/-- C20: the stage invariant of `optimized_fft`.  For an input `x` of length
`N = 2^m < 2^31` and every `s ≤ m`, the bit-reversal permutation followed by the first `s`
stages (block lengths `2, ..., 2^s`; for `s = 0` the permutation alone) completes with a vector
`y` from which the remaining stages produce the result of `optimized_fft`, and for every block
index `b < N / 2^s` the block `y[b·2^s .. b·2^s + 2^s)` equals `naive_dft(z)` where
`z[t] = x[reverse_bits(b, m - s) + t·(N / 2^s)]` for `t < 2^s`. -/
theorem stage_invariant_holds (m : Nat) (x : List ℂ) (hx : x.length = 2 ^ m)
    (h31 : 2 ^ m < 2 ^ 31) (s : Nat) (hs : s ≤ m) :
    ∃ y0 y, bit_reversal_permutation x (m : Int) = .ok y0 ∧
      run_stages (2 ^ m) s y0 = .ok y ∧
      stage_loop (2 ^ m) 2 (by norm_num) y0
        = stage_loop (2 ^ m) (2 * 2 ^ s) (by positivity) y ∧
      optimized_fft x = stage_loop (2 ^ m) (2 * 2 ^ s) (by positivity) y ∧
      y.length = 2 ^ m ∧
      ∀ b, b < 2 ^ (m - s) →
        ∃ Z, naive_dft ((List.range (2 ^ s)).map (fun t =>
            x.getD (reverse_bits b ((m - s : Nat) : Int) + t * 2 ^ (m - s)) 0)) = .ok Z ∧
          (y.drop (b * 2 ^ s)).take (2 ^ s) = Z := by
  have hm : m ≤ 30 := by
    by_contra hc
    have : (2 : Nat) ^ 31 ≤ 2 ^ m := Nat.pow_le_pow_right (by norm_num) (by omega)
    omega
  obtain ⟨y0, hy0, hl0, hv0⟩ := bit_reversal_permutation_ok x m (by omega) hx
  have hinv0 := stage_invariant_init x y0 m hx hl0 hv0
  obtain ⟨y, hy, hinv⟩ := run_stages_ok (fun t => x.getD t 0) m hm y0 hinv0 s hs
  have hpow : 2 ^ s ≤ 2 ^ m := Nat.pow_le_pow_right (by norm_num) hs
  have hsplit := stage_loop_split (2 ^ m) y0 s hpow
  rw [hy] at hsplit
  obtain ⟨y', hy', hfin⟩ := stage_loop_ok (fun t => x.getD t 0) m hm (m - s) s (2 * 2 ^ s)
    (by positivity) y (by omega) rfl hinv
  have hylen : y.length = 2 ^ m := by
    rw [hinv.1]; congr 1; omega
  refine ⟨y0, y, hy0, hy, hsplit, ?_, hylen, ?_⟩
  · rw [optimized_fft_eq m x hx (by rw [hx]; exact h31), hy',
      stage_invariant_final x y' m hx hfin]
  · intro b hb
    refine ⟨_, naive_dft_eq _, ?_⟩
    have hblk : b * 2 ^ s + 2 ^ s ≤ 2 ^ m := by
      have h1 : 2 ^ m = 2 ^ (m - s) * 2 ^ s := by
        rw [← pow_add]; congr 1; omega
      calc b * 2 ^ s + 2 ^ s = (b + 1) * 2 ^ s := by ring
        _ ≤ 2 ^ (m - s) * 2 ^ s := Nat.mul_le_mul_right _ hb
        _ = 2 ^ m := h1.symm
    apply block_eq y _ (b * 2 ^ s) (2 ^ s) (by rw [hylen]; exact hblk)
    · rw [dft_list_length]; simp
    · intro k hk
      rw [hinv.2 b k hb hk, dft_list_getD _ k (by simpa using hk)]
      have hl : ((List.range (2 ^ s)).map (fun t =>
          x.getD (reverse_bits b ((m - s : Nat) : Int) + t * 2 ^ (m - s)) 0)).length = 2 ^ s := by
        simp
      rw [hl]
      apply dft_coeff_congr
      intro t ht
      rw [getD_map_range _ _ _ ht]

/-- Witness for C20: a vector of length four after the first stage. -/
theorem stage_invariant_holds_witness :
    ∃ y0 y, bit_reversal_permutation [1, I, 2, -1] ((2 : Nat) : Int) = .ok y0 ∧
      run_stages (2 ^ 2) 1 y0 = .ok y ∧
      ∀ b, b < 2 ^ (2 - 1) →
        ∃ Z, naive_dft ((List.range (2 ^ 1)).map (fun t =>
            ([1, I, 2, -1] : List ℂ).getD
              (reverse_bits b ((2 - 1 : Nat) : Int) + t * 2 ^ (2 - 1)) 0)) = .ok Z ∧
          (y.drop (b * 2 ^ 1)).take (2 ^ 1) = Z := by
  obtain ⟨y0, y, h1, h2, _, _, _, h3⟩ :=
    stage_invariant_holds 2 [1, I, 2, -1] (by simp) (by norm_num) 1 (by norm_num)
  exact ⟨y0, y, h1, h2, h3⟩

/-! ## The sine wave of `main` for `N = 8` -/

theorem foldl_push_back (f : Nat → ℂ) (k : Nat) :
    (List.range k).foldl (fun acc (n : Nat) => acc ++ [f n]) [] = (List.range k).map f := by
  induction k with
  | zero => rfl
  | succ k ih =>
    rw [List.range_succ, List.foldl_append, ih]
    simp

theorem signal_eq (N : Nat) :
    signal N = (List.range N).map
      (fun (n : Nat) => ((Real.sin (2 * Real.pi * 5 * (n : ℝ) / (N : ℝ)) : ℝ) : ℂ)) := by
  unfold signal PI
  exact foldl_push_back
    (fun (n : Nat) => ((Real.sin (2 * Real.pi * 5 * (n : ℝ) / (N : ℝ)) : ℝ) : ℂ)) N

theorem twiddle_ne_zero (n a : Nat) : twiddle n a ≠ 0 := by
  rw [twiddle]
  exact Complex.exp_ne_zero _

/-- A sample of the sine wave as a difference of two twiddles. -/
theorem sine_sample (t : Nat) :
    ((Real.sin (2 * Real.pi * 5 * (t : ℝ) / ((8 : Nat) : ℝ)) : ℝ) : ℂ)
      = (twiddle 8 (5 * t) - twiddle 8 (3 * t)) * I / 2 := by
  rw [Complex.ofReal_sin, Complex.sin]
  have h1 : Complex.exp (-((2 * Real.pi * 5 * (t : ℝ) / ((8 : Nat) : ℝ) : ℝ) : ℂ) * I)
      = twiddle 8 (5 * t) := by
    rw [twiddle]
    congr 1
    push_cast
    ring
  have h2 : Complex.exp (((2 * Real.pi * 5 * (t : ℝ) / ((8 : Nat) : ℝ) : ℝ) : ℂ) * I)
      = twiddle 8 (3 * t) := by
    have hprod : Complex.exp (((2 * Real.pi * 5 * (t : ℝ) / ((8 : Nat) : ℝ) : ℝ) : ℂ) * I)
        * twiddle 8 (5 * t) = 1 := by
      rw [← h1, ← Complex.exp_add]
      have : ((2 * Real.pi * 5 * (t : ℝ) / ((8 : Nat) : ℝ) : ℝ) : ℂ) * I
          + -((2 * Real.pi * 5 * (t : ℝ) / ((8 : Nat) : ℝ) : ℝ) : ℂ) * I = 0 := by ring
      rw [this, Complex.exp_zero]
    have hprod' : twiddle 8 (3 * t) * twiddle 8 (5 * t) = 1 := by
      rw [← twiddle_add]
      have : 3 * t + 5 * t = 8 * t := by ring
      rw [this, twiddle_period 8 t (by norm_num)]
    exact mul_right_cancel₀ (twiddle_ne_zero 8 (5 * t)) (hprod.trans hprod'.symm)
  rw [h1, h2]

/-- The sum of the powers of an eighth root of unity. -/
theorem twiddle_sum (j : Nat) :
    ∑ t in Finset.range 8, twiddle 8 (j * t) = if 8 ∣ j then 8 else 0 := by
  have hpow : ∀ t, twiddle 8 (j * t) = twiddle 8 j ^ t := fun t => (twiddle_pow 8 j t).symm
  simp only [hpow]
  by_cases hd : 8 ∣ j
  · obtain ⟨c, rfl⟩ := hd
    rw [if_pos ⟨c, rfl⟩, twiddle_period 8 c (by norm_num)]
    simp
  · rw [if_neg hd]
    have hprim : IsPrimitiveRoot (twiddle 8 1) 8 := by
      have h := (Complex.isPrimitiveRoot_exp 8 (by norm_num)).inv
      have e : twiddle 8 1 = (Complex.exp (2 * (Real.pi : ℂ) * I / ((8 : Nat) : ℂ)))⁻¹ := by
        rw [twiddle, ← Complex.exp_neg]
        congr 1
        push_cast
        ring
      rw [e]
      exact h
    have hne : twiddle 8 j ≠ 1 := by
      intro h1
      have : twiddle 8 1 ^ j = 1 := by
        rw [twiddle_pow, Nat.one_mul]; exact h1
      exact hd ((hprim.pow_eq_one_iff_dvd j).mp this)
    have h8 : twiddle 8 j ^ 8 = 1 := by
      rw [twiddle_pow, Nat.mul_comm, twiddle_period 8 j (by norm_num)]
    have hg := mul_geom_sum (twiddle 8 j) 8
    rw [h8, sub_self] at hg
    rcases mul_eq_zero.mp hg with h | h
    · exact absurd (sub_eq_zero.mp h) hne
    · exact h

theorem signal_getD (t : Nat) (ht : t < 8) :
    (signal 8).getD t 0 = (twiddle 8 (5 * t) - twiddle 8 (3 * t)) * I / 2 := by
  rw [signal_eq, getD_map_range _ _ _ ht, sine_sample]

/-- The transform of the sine wave, coefficient by coefficient. -/
theorem signal_dft_coeff (k : Nat) :
    dft_coeff (fun t => (signal 8).getD t 0) 8 k
      = I / 2 * ((if 8 ∣ k + 5 then 8 else 0) - (if 8 ∣ k + 3 then 8 else 0)) := by
  rw [← twiddle_sum (k + 5), ← twiddle_sum (k + 3), ← Finset.sum_sub_distrib, Finset.mul_sum]
  unfold dft_coeff
  apply Finset.sum_congr rfl
  intro t ht
  beta_reduce
  rw [signal_getD t (Finset.mem_range.mp ht)]
  have e1 : (k + 5) * t = 5 * t + k * t := by ring
  have e2 : (k + 3) * t = 3 * t + k * t := by ring
  rw [e1, e2, twiddle_add, twiddle_add]
  ring

theorem signal_dft : dft_list (signal 8) = [0, 0, 0, 4 * I, 0, -(4 * I), 0, 0] := by
  have hlen : (signal 8).length = 8 := by rw [signal_eq]; simp
  apply list_eq_of_getD
  · rw [dft_list_length, hlen]; rfl
  · intro p hp
    rw [dft_list_length, hlen] at hp
    rw [dft_list_getD _ p (by rw [hlen]; exact hp), hlen, signal_dft_coeff]
    interval_cases p <;> norm_num <;> ring

/-- C14: for `N = 8` and the input `x[n] = sin(2π·5·n/8)` that `main` builds, `naive_dft`,
`recursive_fft` and `optimized_fft` complete with the same `8` values, and in this output
only the bins `3` and `5` are non-zero: `X[3] = 4i` and `X[5] = -4i`, of magnitude `4`, and
`X[k] = 0` for `k` in `{0, 1, 2, 4, 6, 7}`. -/
theorem sine_wave_spectrum :
    signal 8 = (List.range 8).map
      (fun (n : Nat) => ((Real.sin (2 * Real.pi * 5 * (n : ℝ) / ((8 : Nat) : ℝ)) : ℝ) : ℂ)) ∧
    ∃ Y, naive_dft (signal 8) = .ok Y ∧ recursive_fft (signal 8) = .ok Y ∧
      optimized_fft (signal 8) = .ok Y ∧
      Y = [0, 0, 0, 4 * I, 0, -(4 * I), 0, 0] ∧
      Complex.abs (Y.getD 3 0) = 4 ∧ Complex.abs (Y.getD 5 0) = 4 := by
  have hlen : (signal 8).length = 2 ^ 3 := by rw [signal_eq]; simp
  refine ⟨signal_eq 8, dft_list (signal 8), naive_dft_eq _, recursive_fft_eq 3 _ hlen,
    optimized_fft_eq 3 _ hlen (by rw [hlen]; norm_num), signal_dft, ?_, ?_⟩
  · rw [signal_dft]; simp
  · rw [signal_dft]; simp

/-! ## The log of the writes -/

/-- A loop with a log computes what the loop without the log computes, and appends one entry
for every pass. -/
theorem foldlM_traced {σ τ : Type} (body : σ → Nat → Except Fault σ) (f : Nat → τ)
    (l : List Nat) :
    ∀ (s : σ) (log : List τ),
      l.foldlM (fun (st : σ × List τ) (j : Nat) => do
          let s' ← body st.1 j
          pure (s', st.2 ++ [f j])) (s, log)
        = (l.foldlM body s >>= fun s' => pure (s', log ++ l.map f)) := by
  induction l with
  | nil =>
    intro s log
    simp only [List.foldlM_nil, List.map_nil, List.append_nil]
    rfl
  | cons a l ih =>
    intro s log
    rw [List.foldlM_cons, List.foldlM_cons]
    cases hb : body s a with
    | error e => rfl
    | ok t =>
      show l.foldlM _ (t, log ++ [f a]) = (l.foldlM body t >>= _)
      rw [ih t (log ++ [f a])]
      simp only [List.map_cons, List.append_assoc, List.singleton_append]

/-- A butterfly with logged writes computes what `butterfly` computes, and the positions that
its two writes record are `idx1` and `idx2`. -/
theorem butterfly_traced_eq (w_len : ℂ) (h i j : Nat) (s : List ℂ × ℂ) :
    butterfly_traced w_len h i s j
      = (butterfly w_len h i s j >>= fun s' =>
          pure (s', [to_size_t (to_int ((i + j : Nat) : Int)),
            to_size_t (to_int ((i + j + h : Nat) : Int))])) := by
  unfold butterfly_traced butterfly vec_write_logged
  simp only []
  cases h1 : vec_read s.1 (to_size_t (to_int ((i + j : Nat) : Int))) with
  | error e => rfl
  | ok u =>
    cases h2 : vec_read s.1 (to_size_t (to_int ((i + j + h : Nat) : Int))) with
    | error e => rfl
    | ok v =>
      cases h3 : vec_write s.1 (to_size_t (to_int ((i + j : Nat) : Int))) (u + s.2 * v) with
      | error e =>
        simp only [bind, Except.bind, h3]
      | ok y =>
        cases h4 : vec_write y (to_size_t (to_int ((i + j + h : Nat) : Int)))
            (u - s.2 * v) with
        | error e =>
          simp only [bind, Except.bind, h3, h4, pure, Except.pure]
        | ok z =>
          simp only [bind, Except.bind, h3, h4, pure, Except.pure, List.nil_append,
            List.singleton_append]

theorem butterfly_loop_traced_eq (w_len : ℂ) (h i : Nat) (x : List ℂ)
    (log : List (List Nat)) :
    butterfly_loop_traced w_len h i x log
      = (butterfly_loop w_len h i x >>= fun y =>
          pure (y, log ++ (List.range h).map (fun j =>
            [to_size_t (to_int ((i + j : Nat) : Int)),
              to_size_t (to_int ((i + j + h : Nat) : Int))]))) := by
  unfold butterfly_loop_traced butterfly_loop
  have hbody : (fun (s : (List ℂ × ℂ) × List (List Nat)) (j : Nat) => do
        let r ← butterfly_traced w_len h i s.1 j
        pure (r.1, s.2 ++ [r.2]))
      = (fun (st : (List ℂ × ℂ) × List (List Nat)) (j : Nat) => do
        let s' ← butterfly w_len h i st.1 j
        pure (s', st.2 ++ [[to_size_t (to_int ((i + j : Nat) : Int)),
          to_size_t (to_int ((i + j + h : Nat) : Int))]])) := by
    funext s j
    rw [butterfly_traced_eq]
    cases butterfly w_len h i s.1 j with
    | error e => rfl
    | ok t => rfl
  rw [hbody, foldlM_traced (butterfly w_len h i) (fun j =>
    [to_size_t (to_int ((i + j : Nat) : Int)), to_size_t (to_int ((i + j + h : Nat) : Int))])]
  cases (List.range h).foldlM (butterfly w_len h i) (x, 1) with
  | error e => rfl
  | ok s => rfl

/-- The positions written by the butterflies of the block `b` of a stage with half length
`h`. -/
theorem block_entries_eq (h b N : Nat) (hb : b * (2 * h) + 2 * h ≤ N) (h31 : N < 2 ^ 31) :
    (List.range h).map (fun j =>
        [to_size_t (to_int ((b * (2 * h) + j : Nat) : Int)),
          to_size_t (to_int ((b * (2 * h) + j + h : Nat) : Int))])
      = (List.range h).map (fun j => [b * (2 * h) + j, b * (2 * h) + j + h]) := by
  apply List.map_congr_left
  intro j hj
  have hj' : j < h := List.mem_range.mp hj
  rw [index_conv _ (by omega), index_conv _ (by omega)]

/-- The middle loop with its log, entered at block `b`. -/
theorem block_loop_traced_eq (w_len : ℂ) (h B N : Nat) (hh : 0 < h) (hN : N = B * (2 * h))
    (h31 : N < 2 ^ 31) (c : Nat) :
    ∀ (b : Nat) (x : List ℂ) (log : List (List Nat)), b + c = B →
      block_loop_traced w_len (2 * h) (by omega) N (b * (2 * h)) x log
        = (block_loop w_len (2 * h) (by omega) N (b * (2 * h)) x >>= fun y =>
            pure (y, log ++ (List.range' b c).flatMap (fun b' =>
              (List.range h).map (fun j => [b' * (2 * h) + j, b' * (2 * h) + j + h])))) := by
  induction c with
  | zero =>
    intro b x log hb
    have : b = B := by omega
    subst this
    rw [block_loop_traced, dif_neg (by omega), block_loop, dif_neg (by omega)]
    simp only [List.range'_zero, List.flatMap_nil, List.append_nil]
    rfl
  | succ c ih =>
    intro b x log hb
    have hBb : B * (2 * h) = b * (2 * h) + (c + 1) * (2 * h) := by
      rw [← hb]; ring
    have hc : (c + 1) * (2 * h) = c * (2 * h) + 2 * h := by ring
    have hlt : b * (2 * h) < N := by omega
    have hnext : b * (2 * h) + 2 * h = (b + 1) * (2 * h) := by ring
    have hhalf : 2 * h / 2 = h := by omega
    rw [block_loop_traced, dif_pos hlt, block_loop, dif_pos hlt]
    simp only [hhalf]
    rw [butterfly_loop_traced_eq, block_entries_eq h b N (by omega) h31]
    cases butterfly_loop w_len h (b * (2 * h)) x with
    | error e => rfl
    | ok y =>
      show block_loop_traced w_len (2 * h) _ N (b * (2 * h) + 2 * h) y _
        = (block_loop w_len (2 * h) _ N (b * (2 * h) + 2 * h) y >>= _)
      simp only [hnext]
      rw [ih (b + 1) y _ (by omega)]
      simp only [List.range'_succ, List.flatMap_cons, List.append_assoc]

/-- The outer loop with its log, entered with block length `2·2^s`, `n` stages before the
end: stage `s'` records `len = 2·2^s'` and the writes of the butterflies of its
`2^(m - s' - 1)` blocks. -/
theorem stage_loop_traced_eq (m : Nat) (hm : m ≤ 30) (n : Nat) :
    ∀ (s len : Nat) (hlen : 0 < len) (x : List ℂ) (log : List (Nat × List (List Nat))),
      s + n = m → len = 2 * 2 ^ s →
      stage_loop_traced (2 ^ m) len hlen x log
        = (stage_loop (2 ^ m) len hlen x >>= fun y =>
            pure (y, log ++ (List.range' s n).map (fun s' =>
              (2 * 2 ^ s', (List.range (2 ^ (m - s' - 1))).flatMap (fun b =>
                (List.range (2 ^ s')).map (fun j =>
                  [b * (2 * 2 ^ s') + j, b * (2 * 2 ^ s') + j + 2 ^ s'])))))) := by
  induction n with
  | zero =>
    intro s len hlen x log hs hl
    have : s = m := by omega
    subst this
    subst hl
    have hpos : 0 < 2 ^ s := Nat.pos_pow_of_pos s (by norm_num)
    rw [stage_loop_traced, dif_neg (by omega), stage_loop, dif_neg (by omega)]
    simp only [List.range'_zero, List.map_nil, List.append_nil]
    rfl
  | succ n ih =>
    intro s len hlen x log hs hl
    subst hl
    have hpos : 0 < 2 ^ s := Nat.pos_pow_of_pos s (by norm_num)
    have hms : m - s - 1 = n := by omega
    have hN : 2 ^ m = 2 ^ (m - s - 1) * (2 * 2 ^ s) := by
      have : m = (m - s - 1) + (s + 1) := by omega
      conv_lhs => rw [this]
      rw [pow_add, pow_succ]; ring
    have h31 : 2 ^ m < 2 ^ 31 := Nat.pow_lt_pow_right (by norm_num) (by omega)
    have hle : 2 * 2 ^ s ≤ 2 ^ m := by
      have : 0 < 2 ^ (m - s - 1) := Nat.pos_pow_of_pos _ (by norm_num)
      rw [hN]
      exact Nat.le_mul_of_pos_left _ this
    have hblk := block_loop_traced_eq (polar 1 (-2 * PI / ((2 * 2 ^ s : Nat) : ℝ))) (2 ^ s)
      (2 ^ (m - s - 1)) (2 ^ m) hpos hN h31 (2 ^ (m - s - 1)) 0 x [] (by omega)
    rw [Nat.zero_mul, ← List.range_eq_range', List.nil_append] at hblk
    rw [stage_loop_traced, dif_pos hle, stage_loop, dif_pos hle]
    simp only []
    rw [hblk]
    cases block_loop (polar 1 (-2 * PI / ((2 * 2 ^ s : Nat) : ℝ))) (2 * 2 ^ s) hlen
        (2 ^ m) 0 x with
    | error e => rfl
    | ok y =>
      show stage_loop_traced (2 ^ m) (2 * (2 * 2 ^ s)) _ y _
        = (stage_loop (2 ^ m) (2 * (2 * 2 ^ s)) _ y >>= _)
      rw [ih (s + 1) (2 * (2 * 2 ^ s)) (by omega) y _ (by omega) (by rw [pow_succ]; ring)]
      simp only [List.range'_succ, List.map_cons, List.append_assoc, List.singleton_append]

/-! ### The positions written in one stage -/

theorem interleave_perm (f g : Nat → Nat) (l : List Nat) :
    (l.flatMap (fun j => [f j, g j])).Perm (l.map f ++ l.map g) := by
  induction l with
  | nil => simp
  | cons a l ih =>
    simp only [List.flatMap_cons, List.map_cons, List.cons_append, List.nil_append]
    exact (List.Perm.cons _ ((List.Perm.cons _ ih).trans List.perm_middle.symm))

theorem flatMap_blocks (L B : Nat) :
    (List.range B).flatMap (fun b => List.range' (b * L) L) = List.range (B * L) := by
  induction B with
  | zero => simp
  | succ B ih =>
    rw [List.range_succ, List.flatMap_append, ih, List.flatMap_singleton,
      List.range_eq_range', List.range_eq_range']
    have := List.range'_append 0 (B * L) L 1
    simp only [Nat.zero_add, Nat.one_mul] at this
    rw [this]
    congr 1
    ring

/-- The positions written by the butterflies of one stage, in the order of the writes, are
the positions `0, ..., N - 1`, each once. -/
theorem stage_written_perm (h B : Nat) :
    ((List.range B).flatMap (fun b =>
        (List.range h).map (fun j => [b * (2 * h) + j, b * (2 * h) + j + h]))).flatten.Perm
      (List.range (B * (2 * h))) := by
  have hflat : ((List.range B).flatMap (fun b =>
        (List.range h).map (fun j => [b * (2 * h) + j, b * (2 * h) + j + h]))).flatten
      = (List.range B).flatMap (fun b =>
          (List.range h).flatMap (fun j => [b * (2 * h) + j, b * (2 * h) + j + h])) := by
    induction B with
    | zero => simp
    | succ B ih =>
      rw [List.range_succ, List.flatMap_append, List.flatMap_append, List.flatten_append, ih,
        List.flatMap_singleton, List.flatMap_singleton]
      rfl
  rw [hflat, ← flatMap_blocks (2 * h) B]
  apply List.Perm.flatMap_left
  intro b _
  refine (interleave_perm (fun j => b * (2 * h) + j) (fun j => b * (2 * h) + j + h)
    (List.range h)).trans ?_
  have e1 : (List.range h).map (fun j => b * (2 * h) + j) = List.range' (b * (2 * h)) h := by
    rw [List.range'_eq_map_range]
  have e2 : (List.range h).map (fun j => b * (2 * h) + j + h)
      = List.range' (b * (2 * h) + h) h := by
    rw [List.range'_eq_map_range]
    apply List.map_congr_left
    intro j _
    omega
  rw [e1, e2]
  have := List.range'_append (b * (2 * h)) h h 1
  simp only [Nat.one_mul] at this
  rw [this]
  have : h + h = 2 * h := by ring
  rw [this]

theorem stage_entries_length (h B : Nat) :
    ((List.range B).flatMap (fun b =>
      (List.range h).map (fun j => [b * (2 * h) + j, b * (2 * h) + j + h]))).length
      = B * h := by
  induction B with
  | zero => simp
  | succ B ih =>
    rw [List.range_succ, List.flatMap_append, List.length_append, ih, List.flatMap_singleton,
      List.length_map, List.length_range]
    ring

/-- Entries with two positions each are pairwise distinct when the list of all their
positions has no repetition. -/
theorem nodup_of_flatten_nodup (E : List (List Nat))
    (hE : ∀ e, e ∈ E → ∃ a b, e = [a, b]) (h : E.flatten.Nodup) : E.Nodup := by
  induction E with
  | nil => exact List.nodup_nil
  | cons e E ih =>
    rw [List.flatten_cons] at h
    have hdis := List.nodup_append.mp h
    refine List.nodup_cons.mpr ⟨?_, ih (fun e' he' => hE e' (List.mem_cons_of_mem _ he')) hdis.2.1⟩
    intro hmem
    obtain ⟨a, b, rfl⟩ := hE e (List.mem_cons_self _ _)
    have h1 : a ∈ [a, b] := List.mem_cons_self _ _
    have h2 : a ∈ E.flatten := List.mem_flatten.mpr ⟨[a, b], hmem, h1⟩
    exact hdis.2.2 h1 h2

theorem sum_of_const (c : Nat) (l : List Nat) (h : ∀ a, a ∈ l → a = c) :
    l.sum = l.length * c := by
  induction l with
  | nil => simp
  | cons a l ih =>
    rw [List.sum_cons, List.length_cons, ih (fun b hb => h b (List.mem_cons_of_mem _ hb)),
      h a (List.mem_cons_self _ _)]
    ring

/-- The log entry of the stage `s < m` of a run on `2^m` values: `N/2` butterflies, each
with two writes at positions `idx1 < idx2 < N`, pairwise distinct, and all the positions
written are the positions of `[0, N)`, each once. -/
theorem stage_entry_props (m s : Nat) (hs : s < m) :
    ((List.range (2 ^ (m - s - 1))).flatMap (fun b =>
        (List.range (2 ^ s)).map (fun j =>
          [b * (2 * 2 ^ s) + j, b * (2 * 2 ^ s) + j + 2 ^ s]))).length = 2 ^ m / 2 ∧
    (∀ e, e ∈ ((List.range (2 ^ (m - s - 1))).flatMap (fun b =>
        (List.range (2 ^ s)).map (fun j =>
          [b * (2 * 2 ^ s) + j, b * (2 * 2 ^ s) + j + 2 ^ s]))) →
      ∃ a b, e = [a, b] ∧ a < b ∧ b < 2 ^ m) ∧
    ((List.range (2 ^ (m - s - 1))).flatMap (fun b =>
        (List.range (2 ^ s)).map (fun j =>
          [b * (2 * 2 ^ s) + j, b * (2 * 2 ^ s) + j + 2 ^ s]))).Nodup ∧
    (((List.range (2 ^ (m - s - 1))).flatMap (fun b =>
        (List.range (2 ^ s)).map (fun j =>
          [b * (2 * 2 ^ s) + j, b * (2 * 2 ^ s) + j + 2 ^ s]))).flatten.Perm
        (List.range (2 ^ m))) ∧
    (∀ i, i < 2 ^ m →
      ((List.range (2 ^ (m - s - 1))).flatMap (fun b =>
        (List.range (2 ^ s)).map (fun j =>
          [b * (2 * 2 ^ s) + j, b * (2 * 2 ^ s) + j + 2 ^ s]))).flatten.count i = 1) := by
  have hpos : 0 < 2 ^ s := Nat.pos_pow_of_pos s (by norm_num)
  have hN : 2 ^ m = 2 ^ (m - s - 1) * (2 * 2 ^ s) := by
    have : m = (m - s - 1) + (s + 1) := by omega
    conv_lhs => rw [this]
    rw [pow_add, pow_succ]; ring
  have hperm := stage_written_perm (2 ^ s) (2 ^ (m - s - 1))
  rw [← hN] at hperm
  have hnodup := (hperm.nodup_iff).mpr (List.nodup_range _)
  have hform : ∀ e, e ∈ ((List.range (2 ^ (m - s - 1))).flatMap (fun b =>
        (List.range (2 ^ s)).map (fun j =>
          [b * (2 * 2 ^ s) + j, b * (2 * 2 ^ s) + j + 2 ^ s]))) →
      ∃ a b, e = [a, b] ∧ a < b ∧ b < 2 ^ m := by
    intro e he
    obtain ⟨b, hb, he⟩ := List.mem_flatMap.mp he
    obtain ⟨j, hj, rfl⟩ := List.mem_map.mp he
    have hb' := List.mem_range.mp hb
    have hj' := List.mem_range.mp hj
    refine ⟨_, _, rfl, by omega, ?_⟩
    have h1 : (b + 1) * (2 * 2 ^ s) ≤ 2 ^ (m - s - 1) * (2 * 2 ^ s) :=
      Nat.mul_le_mul_right _ hb'
    have h2 : (b + 1) * (2 * 2 ^ s) = b * (2 * 2 ^ s) + 2 * 2 ^ s := by ring
    omega
  refine ⟨?_, hform, ?_, hperm, ?_⟩
  · rw [stage_entries_length, hN]
    have : 2 ^ (m - s - 1) * (2 * 2 ^ s) = 2 * (2 ^ (m - s - 1) * 2 ^ s) := by ring
    rw [this]
    omega
  · exact nodup_of_flatten_nodup _
      (fun e he => by obtain ⟨a, b, h, _⟩ := hform e he; exact ⟨a, b, h⟩) hnodup
  · intro i hi
    rw [hperm.count_eq]
    exact List.count_eq_one_of_mem (List.nodup_range _) (List.mem_range.mpr hi)

/-- For an input of length `N = 2^m` with `2 ≤ N < 2^31`, `optimized_fft` terminates and its
stage loop runs exactly `m` stages, with `len = 2, 4, ..., N`.  Each stage performs exactly
`N/2` butterflies; every butterfly writes two positions `idx1 < idx2 < N`, the butterflies of
a stage are pairwise distinct, and the positions written in a stage are the positions of
`[0, N)`, each exactly once.  The whole call performs `(N/2)·m` butterflies. -/
theorem optimized_fft_butterfly_count (m : Nat) (x : List ℂ) (hx : x.length = 2 ^ m)
    (h2 : 2 ≤ 2 ^ m) (h31 : 2 ^ m < 2 ^ 31) :
    ∃ y log, optimized_fft_traced x = .ok (y, log) ∧ optimized_fft x = .ok y ∧
      log.length = m ∧
      log.map Prod.fst = (List.range m).map (fun s => 2 * 2 ^ s) ∧
      (∀ e, e ∈ log →
        e.2.length = 2 ^ m / 2 ∧
        (∀ w, w ∈ e.2 → ∃ a b, w = [a, b] ∧ a < b ∧ b < 2 ^ m) ∧
        e.2.Nodup ∧
        e.2.flatten.Perm (List.range (2 ^ m)) ∧
        ∀ i, i < 2 ^ m → e.2.flatten.count i = 1) ∧
      (log.map (fun e => e.2.length)).sum = 2 ^ m / 2 * m := by
  have hm : m ≤ 30 := by
    by_contra hc
    have : (2 : Nat) ^ 31 ≤ 2 ^ m := Nat.pow_le_pow_right (by norm_num) (by omega)
    omega
  have hpw : is_power_of_two (to_int (x.length : Int)) = true := by
    rw [to_int_small _ (by rw [hx]; exact h31)]
    exact (is_power_of_two_nat x.length).mpr ⟨m, hx⟩
  obtain ⟨y0, hy0, hl0, hv0⟩ := bit_reversal_permutation_ok x m (by omega) hx
  have hinv0 := stage_invariant_init x y0 m hx hl0 hv0
  obtain ⟨y', hy', hfin⟩ := stage_loop_ok (fun t => x.getD t 0) m hm m 0 2 (by omega) y0
    (by omega) (by simp) hinv0
  have htr := stage_loop_traced_eq m hm m 0 2 (by omega) y0 [] (by omega) (by simp)
  rw [hy', List.nil_append, ← List.range_eq_range'] at htr
  refine ⟨y', (List.range m).map (fun s' =>
      (2 * 2 ^ s', (List.range (2 ^ (m - s' - 1))).flatMap (fun b =>
        (List.range (2 ^ s')).map (fun j =>
          [b * (2 * 2 ^ s') + j, b * (2 * 2 ^ s') + j + 2 ^ s'])))), ?_, ?_, ?_, ?_, ?_, ?_⟩
  · unfold optimized_fft_traced
    simp only []
    rw [if_neg (by omega), hpw]
    simp only [Bool.true_eq_false, if_false]
    rw [hx, num_bits_loop_ok m hm m 0 (by omega)]
    simp only [bind, Except.bind, hy0]
    exact htr
  · rw [optimized_fft_eq m x hx (by rw [hx]; exact h31), stage_invariant_final x y' m hx hfin]
  · simp
  · rw [List.map_map]
    rfl
  · intro e he
    obtain ⟨s, hs, rfl⟩ := List.mem_map.mp he
    exact stage_entry_props m s (List.mem_range.mp hs)
  · rw [sum_of_const (2 ^ m / 2)]
    · simp
      ring
    · intro a ha
      obtain ⟨e, he, rfl⟩ := List.mem_map.mp ha
      obtain ⟨s, hs, rfl⟩ := List.mem_map.mp he
      exact (stage_entry_props m s (List.mem_range.mp hs)).1

theorem optimized_fft_traced_assert (x : List ℂ) (h2 : 2 ≤ x.length)
    (hp : is_power_of_two (to_int (x.length : Int)) = false) :
    optimized_fft_traced x = .error .assertion_failed := by
  unfold optimized_fft_traced
  have : ¬ x.length ≤ 1 := by omega
  simp [this, hp]

/-- C18: on a vector of length `N = 2^31`, a power of two with `N ≥ 2`, `optimized_fft` does
not run its stage loop at all: the length converted to `int` is `-2^31`, the assertion fires,
and neither the call nor the call with the log of its stages returns, where `31` stages of
`2^30` butterflies each are due. -/
theorem optimized_fft_no_stage_at_two_pow_31 :
    (List.replicate (2 ^ 31) (0 : ℂ)).length = 2 ^ 31 ∧
    2 ≤ (List.replicate (2 ^ 31) (0 : ℂ)).length ∧
    optimized_fft_traced (List.replicate (2 ^ 31) (0 : ℂ)) = .error .assertion_failed ∧
    optimized_fft (List.replicate (2 ^ 31) (0 : ℂ)) = .error .assertion_failed ∧
    ¬ ∃ y log, optimized_fft_traced (List.replicate (2 ^ 31) (0 : ℂ)) = .ok (y, log) ∧
      log.length = 31 := by
  have hlen : (List.replicate (2 ^ 31) (0 : ℂ)).length = 2 ^ 31 := List.length_replicate _ _
  have h2 : 2 ≤ (List.replicate (2 ^ 31) (0 : ℂ)).length := by rw [hlen]; norm_num
  have hp : is_power_of_two (to_int ((List.replicate (2 ^ 31) (0 : ℂ)).length : Int))
      = false := by
    rw [hlen]; decide
  have htr := optimized_fft_traced_assert _ h2 hp
  refine ⟨hlen, h2, htr, optimized_fft_assert _ h2 hp, ?_⟩
  rintro ⟨y, log, h, _⟩
  rw [htr] at h
  cases h

end FFT
